import Mathlib

/-!
Shallow embedding of the Tsangski/mt-core repository (Python) in Lean 4.

Embedded sources:
* `src/yimt/core/data/vocab.py` — the `Vocab` class: construction with special
  tokens, `add`, `load`, `serialize`, `lookup`, `prune`, `pad_to_multiple`.
* `src/yimt/core/models/sequence_to_sequence.py` — `replace_unknown_target`,
  `align_tokens_from_attention`, `SequenceToSequence.compute_loss` and the
  hypothesis-truncation tail of `SequenceToSequence._dynamic_decode`.

Modelling conventions:
* Python `float` frequencies are only ever non-negative integers or
  `float("inf")` in this code, so frequencies are modelled as `WithTop Nat`
  (`⊤` = infinity); `inf + 1 = inf` matches Python float arithmetic here.
* Python `dict` is modelled as an association list with first-match lookup and
  replace-or-append assignment (Python dicts have unique keys, so this is
  observationally equivalent for `get`/`in`/`[]=`).
* A written Python file is modelled as its full text content (`serialize`
  appends `token + "\n"` to the stream for each token); reading a text file
  iterates over its lines, each line keeping its trailing `"\n"` (the last
  line may lack one), which `fileLines` models; the `rstrip` handling of line
  terminators is modelled explicitly.
* Python `sorted(..., key=key, reverse=True)` is a stable descending sort:
  elements with equal keys keep their original order.  On the distinct indices
  `0..n-1` this is exactly the lexicographic order "key descending, index
  ascending", which is how it is modelled (via `List.mergeSort` with that
  total order; the sorted permutation of distinct elements under a linear
  order is unique, so any stable implementation agrees).
* TensorFlow string tensors are modelled as nested lists of `String`;
  attention tensors as nested lists of `ℚ` (the claims are about argmax
  selection, which is insensitive to the numeric representation).
-/

namespace MT

/-- Frequency values: natural numbers or `+infinity` (`float("inf")`). -/
abbrev Freq : Type := WithTop Nat

/-- The empty string (named so string literals never directly follow an
identifier). -/
def emptyStr : String :=
  ""

/-- A single tab character, the SentencePiece field separator. -/
def tabStr : String :=
  "\t"

/-- Python `dict` get: the first (unique) binding of the key, if any. -/
def dget (d : List (String × Nat)) (k : String) : Option Nat :=
  (d.find? (fun p => decide (p.1 = k))).map (fun p => p.2)

/-- Python `dict` assignment `d[k] = v`: replace the binding if the key is
present, otherwise append a new binding. -/
def dset (d : List (String × Nat)) (k : String) (v : Nat) : List (String × Nat) :=
  if (d.find? (fun p => decide (p.1 = k))).isSome then
    d.map (fun p => if p.1 = k then (k, v) else p)
  else
    d ++ [(k, v)]

/-- State of `yimt.core.data.vocab.Vocab`: the three aligned fields
`_token_to_id`, `_id_to_token` and `_frequency`. -/
structure Vocab where
  token_to_id : List (String × Nat)
  id_to_token : List String
  frequency : List Freq
deriving DecidableEq

/-- Source `Vocab.size`: `len(self._id_to_token)`. -/
def Vocab.size (v : Vocab) : Nat :=
  v.id_to_token.length

/-- Source `Vocab.__init__` with `special_tokens=None`. -/
def Vocab.empty : Vocab :=
  ⟨[], [], []⟩

/-- Source `Vocab.__init__(special_tokens)`: for each `(index, token)` in
`enumerate(special_tokens)`, set `token_to_id[token] = index`, insert the
token at position `index` (the current length, so an append) and insert
frequency `float("inf")` there. -/
def Vocab.initWith (special_tokens : List String) : Vocab :=
  (special_tokens.enum).foldl
    (fun v p =>
      { token_to_id := dset v.token_to_id p.2 p.1,
        id_to_token := v.id_to_token.insertIdx p.1 p.2,
        frequency := v.frequency.insertIdx p.1 ⊤ })
    Vocab.empty

/-- Source `Vocab.add(token)`: if the token is unseen, append it with
frequency 1 at the next free id; otherwise increment its frequency counter
(`inf + 1 = inf` for special tokens, as in Python float arithmetic). -/
def Vocab.add (v : Vocab) (token : String) : Vocab :=
  match dget v.token_to_id token with
  | none =>
      { token_to_id := dset v.token_to_id token v.size,
        id_to_token := v.id_to_token ++ [token],
        frequency := v.frequency ++ [1] }
  | some id =>
      { v with frequency := v.frequency.set id (v.frequency.getD id 0 + 1) }

/-- Building a `Vocab` from a token list by repeated `Vocab.add` on a fresh
empty vocabulary. -/
def Vocab.fromList (tokens : List String) : Vocab :=
  tokens.foldl Vocab.add Vocab.empty

/-- Python `line.rstrip("\r\n")`: strip trailing carriage-return and newline
characters (expressed over the character list so that it evaluates inside the
kernel). -/
def rstripCRLF (s : String) : String :=
  String.mk ((s.data.reverse.dropWhile (fun c => decide (c = '\r' ∨ c = '\n'))).reverse)

/-- A single newline character, the separator written by `serialize`. -/
def lineFeed : String :=
  "\n"

/-- Source `Vocab.serialize(path)`: for each token in id order, write the
token and then `"\n"` to the stream; the written file is modelled as its
full text content. -/
def Vocab.serialize (v : Vocab) : String :=
  v.id_to_token.foldl (fun acc token => acc ++ token ++ lineFeed) emptyStr

/-- Iterating a Python text file: accumulate characters of the current line
(in reverse) and emit a line, including its `"\n"` terminator, at every
newline; a final line without a terminator is emitted as well, and a file
ending in `"\n"` yields no extra empty line. -/
def splitLinesAux : List Char → List Char → List String
  | [], acc => if acc.isEmpty then [] else [String.mk acc.reverse]
  | c :: rest, acc =>
    if c = '\n' then
      String.mk (acc.reverse ++ ['\n']) :: splitLinesAux rest []
    else
      splitLinesAux rest (c :: acc)

/-- Lines of a file's text content, as Python's file iteration yields them
(each line keeps its `"\n"`). -/
def fileLines (s : String) : List String :=
  splitLinesAux s.data []

/-- Character stream `serialize` writes for a token list:
`token₀ ++ "\n" ++ token₁ ++ "\n" ++ ...`. -/
def serializeData : List String → List Char
  | [] => []
  | t :: ts => t.data ++ '\n' :: serializeData ts

/-- Format name accepted by `Vocab.load`. -/
def fmtDefault : String :=
  "default"

/-- Format name accepted by `Vocab.load`. -/
def fmtSentencePiece : String :=
  "sentencepiece"

/-- Loop body of `Vocab.load` for `file_format="default"`: for each line
(0-based index `i`), strip the line terminator; if the token is already in
`token_to_id`, emit a warning naming line `i + 1` and skip it; otherwise
append it with frequency 1.  Returns the grown vocabulary together with the
list of warned (1-based) line numbers. -/
def Vocab.loadDefaultAux (v : Vocab) (i : Nat) : List String → Vocab × List Nat
  | [] => (v, [])
  | line :: rest =>
    let token := rstripCRLF line
    if (dget v.token_to_id token).isSome then
      let r := Vocab.loadDefaultAux v (i + 1) rest
      (r.1, (i + 1) :: r.2)
    else
      Vocab.loadDefaultAux
        { token_to_id := dset v.token_to_id token v.size,
          id_to_token := v.id_to_token ++ [token],
          frequency := v.frequency ++ [1] }
        (i + 1) rest

/-- Reserved SentencePiece tokens skipped unconditionally by `Vocab.load`. -/
def spReserved : List String :=
  ["<unk>", "<s>", "</s>"]

/-- Loop body of `Vocab.load` for `file_format="sentencepiece"`: each line is
`token<TAB>score` (`token, _ = token.split("\t")` raises `ValueError` when
the stripped line does not split into exactly two parts); the three reserved
SentencePiece strings are skipped unconditionally; duplicates warn and are
skipped as in the default format. -/
def Vocab.loadSpAux (v : Vocab) (i : Nat) :
    List String → Except String (Vocab × List Nat)
  | [] => Except.ok (v, [])
  | line :: rest =>
    let parts := (rstripCRLF line).splitOn tabStr
    if parts.length ≠ 2 then
      Except.error ("not enough values to unpack")
    else
      let token := parts.headD emptyStr
      if token ∈ spReserved then
        Vocab.loadSpAux v (i + 1) rest
      else if (dget v.token_to_id token).isSome then
        (Vocab.loadSpAux v (i + 1) rest).map (fun r => (r.1, (i + 1) :: r.2))
      else
        Vocab.loadSpAux
          { token_to_id := dset v.token_to_id token v.size,
            id_to_token := v.id_to_token ++ [token],
            frequency := v.frequency ++ [1] }
          (i + 1) rest

/-- Source `Vocab.load(path, file_format)`: raises `ValueError` on an invalid
format name, otherwise folds the per-line loop over the file's lines.  The
result carries the warned (1-based) line numbers of skipped duplicates. -/
def Vocab.load (v : Vocab) (file_format : String) (lines : List String) :
    Except String (Vocab × List Nat) :=
  if file_format ≠ fmtDefault ∧ file_format ≠ fmtSentencePiece then
    Except.error ("Invalid vocabulary format: " ++ file_format)
  else if file_format = fmtSentencePiece then
    Vocab.loadSpAux v 0 lines
  else
    Except.ok (Vocab.loadDefaultAux v 0 lines)

/-- Python list indexing after the negative-index adjustment: a position
still outside `[0, len)` raises `IndexError` (modelled as
`Except.error ()`). -/
def pyGetAbs {α : Type} (l : List α) (j : Int) : Except Unit α :=
  if j < 0 then Except.error ()
  else
    match l.get? j.toNat with
    | some a => Except.ok a
    | none => Except.error ()

/-- Python list indexing `l[i]` with an `int` index: negative indices count
from the end; an index outside `[-len, len)` raises `IndexError`. -/
def pyGet {α : Type} (l : List α) (i : Int) : Except Unit α :=
  pyGetAbs l (if i < 0 then i + l.length else i)

/-- Source `Vocab.lookup` on a string identifier:
`self._token_to_id.get(identifier)`, then the caller-supplied default when the
result is `None` (`none` in the result means the default is returned). -/
def Vocab.lookupToken (v : Vocab) (token : String) : Option Nat :=
  dget v.token_to_id token

/-- Source `Vocab.lookup` on an integer identifier: if
`identifier < self.size`, the value is `self._id_to_token[identifier]`
(Python indexing: negative indices count from the end and can raise
`IndexError`); otherwise the value stays `None` and the caller-supplied
default is returned.  `Except.ok none` means the default is returned;
`Except.error ()` means `IndexError` is raised. -/
def Vocab.lookupInt (v : Vocab) (identifier : Int) : Except Unit (Option String) :=
  if identifier < (v.size : Int) then
    (pyGet v.id_to_token identifier).map some
  else
    Except.ok none

/-- Source `self._frequency[k]` for an id `k` (always in range on the states
the code builds). -/
def Vocab.freqAt (v : Vocab) (k : Nat) : Freq :=
  v.frequency.getD k 0

/-- Order realising Python's
`sorted(range(self.size), key=lambda k: self._frequency[k], reverse=True)`:
a stable descending sort by frequency keeps equal-frequency elements in their
original order, so on the distinct indices `0..n-1` the result is the unique
permutation sorted under the linear order "frequency descending, original
index ascending". -/
def freqDescLe (f : Nat → Freq) (i j : Nat) : Prop :=
  f j < f i ∨ (f i = f j ∧ i ≤ j)

instance freqDescLe.instDecidableRel (f : Nat → Freq) :
    DecidableRel (freqDescLe f) :=
  fun _ _ => inferInstanceAs (Decidable (_ ∨ _))

/-- Source `sorted_ids` in `Vocab.prune`: the unique `freqDescLe`-sorted
permutation of `range(self.size)` (computed by insertion sort, which any
stable descending sort agrees with on distinct indices). -/
def Vocab.sortedIds (v : Vocab) : List Nat :=
  (List.range v.size).insertionSort (freqDescLe v.freqAt)

/-- Backward scan of `Vocab.prune`:
`for i in range(new_size - 1, 0, -1): if freq[sorted_ids[i]] < min_frequency:
new_size -= 1 else: break`.  The list argument is
`sorted_ids[n-1], ..., sorted_ids[1]` (the scanned elements in scan order). -/
def pruneScan (v : Vocab) (min_frequency : Freq) : List Nat → Nat → Nat
  | [], ns => ns
  | index :: rest, ns =>
    if v.freqAt index < min_frequency then pruneScan v min_frequency rest (ns - 1)
    else ns

/-- Value of `new_size` in `Vocab.prune` after the backward scan and the
`max_size` cap (`if max_size > 0: new_size = min(new_size, max_size)`). -/
def Vocab.pruneSize (v : Vocab) (max_size : Nat) (min_frequency : Freq) : Nat :=
  let ns0 :=
    pruneScan v min_frequency ((v.sortedIds.drop 1).reverse) v.sortedIds.length
  if 0 < max_size then min ns0 max_size else ns0

/-- The ids surviving `Vocab.prune`: the first `new_size` entries of
`sorted_ids`, in sorted order (`for i in range(new_size): index =
sorted_ids[i]`). -/
def Vocab.keptIds (v : Vocab) (max_size : Nat) (min_frequency : Freq) :
    List Nat :=
  v.sortedIds.take (v.pruneSize max_size min_frequency)

/-- Token at id `k` (`self._id_to_token[index]`, in range on every state the
code builds). -/
def Vocab.tokenAt (v : Vocab) (k : Nat) : String :=
  v.id_to_token.getD k emptyStr

/-- Loop body of `Vocab.prune`'s rebuild loop: append the token and its
frequency to the new vocabulary, assigning the next dense id
(`new_vocab._token_to_id[token] = i` where `i` is the running position). -/
def pruneStep (v : Vocab) (nv : Vocab) (index : Nat) : Vocab :=
  { token_to_id := dset nv.token_to_id (v.tokenAt index) nv.id_to_token.length,
    id_to_token := nv.id_to_token ++ [v.tokenAt index],
    frequency := nv.frequency ++ [v.freqAt index] }

/-- Source `Vocab.prune(max_size, min_frequency)`: stable descending
frequency sort, drop the below-threshold tail (never examining sorted
position 0), cap to `max_size` when positive, then rebuild a fresh vocabulary
from the kept ids in sorted order with dense new ids. -/
def Vocab.prune (v : Vocab) (max_size : Nat) (min_frequency : Freq) : Vocab :=
  (v.keptIds max_size min_frequency).foldl (pruneStep v) Vocab.empty

/-- Synthetic filler token `"averyunlikelytoken%d" % i`. -/
def synthToken (i : Nat) : String :=
  "averyunlikelytoken" ++ toString i

/-- While loop of `Vocab.pad_to_multiple(multiple, num_oov_buckets)`, with
explicit fuel (the Python loop terminates; theorems either assume a run that
returned within the given fuel, or exhibit sufficient fuel). -/
def Vocab.padAux (v : Vocab) (multiple num_oov_buckets i : Nat) :
    Nat → Option Vocab
  | 0 => none
  | fuel + 1 =>
    if (v.size + num_oov_buckets) % multiple = 0 then some v
    else Vocab.padAux (v.add (synthToken i)) multiple num_oov_buckets (i + 1) fuel

/-- Source `Vocab.pad_to_multiple(multiple, num_oov_buckets)`: the loop
starting at `i = 0`. -/
def Vocab.pad_to_multiple (v : Vocab) (multiple num_oov_buckets fuel : Nat) :
    Option Vocab :=
  Vocab.padAux v multiple num_oov_buckets 0 fuel

/-! ### src/yimt/core/models/sequence_to_sequence.py -/

/-- Inner loop of `tf.argmax` over one row: running best value, its (first)
index, and the index of the current element. -/
def argmaxAux (best : ℚ) (bestIdx cur : Nat) : List ℚ → Nat
  | [] => bestIdx
  | x :: xs =>
    if best < x then argmaxAux x cur (cur + 1) xs
    else argmaxAux best bestIdx (cur + 1) xs

/-- Model of `tf.argmax(..., axis=-1)` on one row: the first index holding the
maximum value (TensorFlow returns the smallest index among ties). -/
def tfArgmax (row : List ℚ) : Nat :=
  match row with
  | [] => 0
  | x :: xs => argmaxAux x 0 1 xs

/-- Source `align_tokens_from_attention(tokens, attention)`:
`alignment = tf.argmax(attention, axis=-1)` then
`tf.gather(tokens, alignment, axis=1, batch_dims=1)` — per batch element, per
target position, the source token at the attention argmax. -/
def align_tokens_from_attention (tokens : List (List String))
    (attention : List (List (List ℚ))) : List (List String) :=
  List.zipWith
    (fun toks rows => rows.map (fun row => toks.getD (tfArgmax row) emptyStr))
    tokens attention

/-- Source `replace_unknown_target(target_tokens, source_tokens, attention,
unknown_token)`: `tf.where(tf.equal(target_tokens, unknown_token),
x=aligned_source_tokens, y=target_tokens)`. -/
def replace_unknown_target (target_tokens source_tokens : List (List String))
    (attention : List (List (List ℚ))) (unknown_token : String) :
    List (List String) :=
  List.zipWith
    (fun trow arow =>
      List.zipWith (fun t a => if t = unknown_token then a else t) trow arow)
    target_tokens (align_tokens_from_attention source_tokens attention)

/-- Parameters read by `SequenceToSequence.compute_loss` (each field is the
value of `params.get(...)` after its default is applied). -/
structure S2SParams where
  contrastive_learning : Bool
  max_margin_eta : ℚ
  label_smoothing : ℚ
  average_loss_in_time : Bool
  mask_loss_outliers : Bool
  guided_alignment_type : Option String
  guided_alignment_weight : ℚ

/-- Output bundle passed to `compute_loss` (already in `dict` form; the
non-dict case wraps the tensor as `{"logits": outputs}`). -/
structure S2SOutputs (T : Type) where
  logits : T
  noisy_logits : Option T
  attention : Option T

/-- Label dictionary fields read by `compute_loss`; `weight` and `alignment`
are accessed with `.get` and may be absent. -/
structure S2SLabels (T : Type) where
  ids_out : T
  length : T
  weight : Option T
  noisy_ids_out : T
  noisy_length : T
  alignment : Option T

/-- Source `SequenceToSequence.compute_loss(outputs, labels, training)`, with
the external loss collaborators (`losses.max_margin_loss`,
`losses.cross_entropy_sequence_loss`, `losses.guided_alignment_cost`,
modules not under `src/`) abstracted as function parameters; the attention
slice `attention[:, :-1]` and the `get_length` call are folded into the
abstracted `guided_alignment_cost` boundary.  The max-margin branch returns a
single loss value; the cross-entropy branch a
`(loss, loss_normalizer, loss_token_normalizer)` triple, hence the sum
result type. -/
def compute_loss {L T : Type} [Add L]
    (max_margin_loss : T → T → T → T → T → T → ℚ → L)
    (cross_entropy_sequence_loss : T → T → T → Option T → ℚ → Bool → Bool → Bool → L × L × L)
    (guided_alignment_cost : T → T → T → String → ℚ → L)
    (params : S2SParams) (outputs : S2SOutputs T) (labels : S2SLabels T)
    (training : Bool) : L ⊕ (L × L × L) :=
  match outputs.noisy_logits, params.contrastive_learning with
  | some noisy, true =>
      Sum.inl (max_margin_loss outputs.logits labels.ids_out labels.length
        noisy labels.noisy_ids_out labels.noisy_length params.max_margin_eta)
  | noisy_logits, contrastive =>
      let _ := noisy_logits
      let _ := contrastive
      let r := cross_entropy_sequence_loss outputs.logits labels.ids_out
        labels.length labels.weight params.label_smoothing
        params.average_loss_in_time params.mask_loss_outliers training
      let loss :=
        if training then
          match labels.alignment, params.guided_alignment_type with
          | some gold_alignments, some gat =>
              match outputs.attention with
              | none => r.1
              | some att =>
                  r.1 + guided_alignment_cost att gold_alignments labels.length
                    gat params.guided_alignment_weight
          | _, _ => r.1
        else r.1
      Sum.inr (loss, r.2.1, r.2.2)

/-- Modelled from the spec: the label-smoothing behaviour of
`losses.cross_entropy_sequence_loss` (module `yimt/core/utils/losses.py`,
which is not under `src/`).  Per the spec it computes a "label-smoothed
cross-entropy sequence loss": at one position, given the model's
log-probability vector, the cross-entropy against the smoothed target
distribution `(1 - ε) · onehot(gold) + ε · uniform`. -/
def smoothed_cross_entropy (logProbs : List ℚ) (gold : Nat) (ε : ℚ) : ℚ :=
  -(((1 - ε) * logProbs.getD gold 0) + (ε / logProbs.length) * logProbs.sum)

/-- Tail of `SequenceToSequence._dynamic_decode` (the
"restrict the number of returned hypotheses" block): `num_hypotheses =
params.get("num_hypotheses", 1)`; when positive, raise `ValueError` if it
exceeds the beam size, otherwise slice every prediction field to
`value[:, :num_hypotheses]`.  Prediction fields are modelled as key/value
pairs whose value is a per-input list of per-hypothesis entries. -/
def truncate_predictions {α : Type} (num_hypotheses : Int) (beam_size : Nat)
    (predictions : List (String × List (List α))) :
    Except String (List (String × List (List α))) :=
  if 0 < num_hypotheses then
    if (beam_size : Int) < num_hypotheses then
      Except.error ("n_best cannot be greater than beam_width")
    else
      Except.ok (predictions.map
        (fun kv => (kv.1, kv.2.map (fun row => row.take num_hypotheses.toNat))))
  else
    Except.ok predictions

/-! ### Helper definitions for theorem statements -/

/-- Consistency between the dictionary and the list: a token has an id exactly
when it occurs in `id_to_token`.  This holds of every vocabulary the code
builds and is preserved by every operation. -/
def Vocab.Inv (v : Vocab) : Prop :=
  ∀ t : String, (dget v.token_to_id t).isSome ↔ t ∈ v.id_to_token

/-- Tokens a loading/adding pass appends to a vocabulary whose current tokens
are `seen`: the first occurrences of tokens not yet present. -/
def newTokens (seen : List String) : List String → List String
  | [] => []
  | t :: rest =>
    if t ∈ seen then newTokens seen rest
    else t :: newTokens (seen ++ [t]) rest

/-- Warned (1-based) line numbers a loading pass emits, starting at 0-based
line index `i`, when the vocabulary's current tokens are `seen`. -/
def warnsOf (seen : List String) (i : Nat) : List String → List Nat
  | [] => []
  | t :: rest =>
    if t ∈ seen then (i + 1) :: warnsOf seen (i + 1) rest
    else warnsOf (seen ++ [t]) (i + 1) rest

/-- Concrete tokens for witnesses and counterexamples. -/
def tokA : String :=
  "a"

/-- Concrete token for witnesses and counterexamples. -/
def tokB : String :=
  "b"

/-- Concrete token for witnesses and counterexamples. -/
def tokC : String :=
  "c"

/-- Concrete token: the unknown token `<unk>`. -/
def unkTok : String :=
  "<unk>"

/-- Concrete token for the C5 example. -/
def tokThe : String :=
  "the"

/-- Concrete token for the C5 example. -/
def tokCat : String :=
  "cat"

/-- Concrete token for the C5 example. -/
def tokSat : String :=
  "sat"

/-- Concrete parameters (contrastive learning on) for loss-selection
witnesses. -/
def c6ParamsOn : S2SParams :=
  ⟨true, 2, 3, false, false, none, 1⟩

/-- Concrete parameters (contrastive learning off) for loss-selection
witnesses. -/
def c6ParamsOff : S2SParams :=
  ⟨false, 2, 3, false, false, none, 1⟩

/-- Concrete outputs bundle for loss-selection witnesses. -/
def c6Outputs : S2SOutputs ℚ :=
  ⟨5, some 7, none⟩

/-- Concrete labels for loss-selection witnesses. -/
def c6Labels : S2SLabels ℚ :=
  ⟨1, 2, none, 3, 4, none⟩

/-- Concrete max-margin collaborator (returns its margin argument) for
loss-selection witnesses. -/
def c6mml : ℚ → ℚ → ℚ → ℚ → ℚ → ℚ → ℚ → ℚ :=
  fun _ _ _ _ _ _ e => e

/-- Concrete cross-entropy collaborator (returns its smoothing argument) for
loss-selection witnesses. -/
def c6cel : ℚ → ℚ → ℚ → Option ℚ → ℚ → Bool → Bool → Bool → ℚ × ℚ × ℚ :=
  fun _ _ _ _ ls _ _ _ => (ls, 0, 0)

/-- Concrete guided-alignment collaborator for loss-selection witnesses. -/
def c6gac : ℚ → ℚ → ℚ → String → ℚ → ℚ :=
  fun _ _ _ _ w => w

/-- Concrete target tokens for the C5 example. -/
def c5Tgt : List (List String) :=
  [[unkTok, tokCat]]

/-- Concrete source tokens for the C5 example. -/
def c5Src : List (List String) :=
  [[tokThe, tokCat, tokSat]]

/-- Concrete attention matrix for the C5 example (row 0 argmax is index 1). -/
def c5Att : List (List (List ℚ)) :=
  [[[0, 1, 0], [0, 0, 1]]]

/-- Concrete token with an interior newline, breaking the serialize/load
round trip. -/
def tokNl : String :=
  "a\nb"

/-- Concrete token with a trailing carriage return, breaking the
serialize/load round trip. -/
def tokCr : String :=
  "a\r"

/-! ## Dictionary lemmas -/

theorem dget_nil (t : String) : dget [] t = none :=
  rfl

theorem dget_cons (p : String × Nat) (d : List (String × Nat)) (t : String) :
    dget (p :: d) t = if p.1 = t then some p.2 else dget d t := by
  by_cases h : p.1 = t <;> simp [dget, List.find?_cons, h]

theorem dget_append (d₁ d₂ : List (String × Nat)) (t : String) :
    dget (d₁ ++ d₂) t = (dget d₁ t).or (dget d₂ t) := by
  simp only [dget, List.find?_append]
  cases h : List.find? (fun p => decide (p.1 = t)) d₁ <;> simp [h]

theorem dget_single (k : String) (v : Nat) (t : String) :
    dget [(k, v)] t = if k = t then some v else none := by
  by_cases h : k = t <;> simp [dget, List.find?_cons, h]

theorem dset_of_none (d : List (String × Nat)) (k : String) (v : Nat)
    (h : dget d k = none) : dset d k v = d ++ [(k, v)] := by
  have hf : List.find? (fun p => decide (p.1 = k)) d = none := by
    simpa [dget, Option.map_eq_none'] using h
  simp [dset, hf]

/-! ## Vocab.add and Vocab.Inv lemmas -/

theorem Inv_empty : Vocab.empty.Inv := by
  intro t
  simp [Vocab.empty, Vocab.Inv, dget]

theorem add_of_none {v : Vocab} {t : String} (h : dget v.token_to_id t = none) :
    v.add t = ⟨v.token_to_id ++ [(t, v.size)], v.id_to_token ++ [t],
      v.frequency ++ [1]⟩ := by
  simp [Vocab.add, h, dset_of_none _ _ _ h]

theorem add_of_some {v : Vocab} {t : String} {i : Nat}
    (h : dget v.token_to_id t = some i) :
    (v.add t).token_to_id = v.token_to_id ∧
      (v.add t).id_to_token = v.id_to_token := by
  simp [Vocab.add, h]

theorem dget_isSome_iff_ne_none {d : List (String × Nat)} {t : String} :
    (dget d t).isSome ↔ dget d t ≠ none := by
  cases h : dget d t <;> simp

theorem Inv_add {v : Vocab} (hv : v.Inv) (t : String) : (v.add t).Inv := by
  cases h : dget v.token_to_id t with
  | some i =>
      intro u
      have hu := hv u
      simpa [Vocab.add, h] using hu
  | none =>
      intro u
      rw [add_of_none h]
      show (dget (v.token_to_id ++ [(t, v.size)]) u).isSome ↔
        u ∈ v.id_to_token ++ [t]
      rw [dget_append, dget_single]
      by_cases hu : t = u
      · subst hu
        simp [h]
      · have := hv u
        cases hg : dget v.token_to_id u <;>
          simp_all [Option.or, List.mem_append, Ne.symm hu]

theorem add_id_of_mem {v : Vocab} (hv : v.Inv) {t : String}
    (h : t ∈ v.id_to_token) : (v.add t).id_to_token = v.id_to_token := by
  have hs : (dget v.token_to_id t).isSome := (hv t).mpr h
  cases hg : dget v.token_to_id t with
  | none => rw [hg] at hs; simp at hs
  | some i => exact (add_of_some hg).2

theorem add_id_of_not_mem {v : Vocab} (hv : v.Inv) {t : String}
    (h : t ∉ v.id_to_token) : (v.add t).id_to_token = v.id_to_token ++ [t] := by
  cases hg : dget v.token_to_id t with
  | none => rw [add_of_none hg]
  | some i =>
      exact absurd ((hv t).mp (by simp [hg])) h

theorem nodup_add {v : Vocab} (hv : v.Inv) (hnd : v.id_to_token.Nodup)
    (t : String) : (v.add t).id_to_token.Nodup := by
  by_cases h : t ∈ v.id_to_token
  · rw [add_id_of_mem hv h]; exact hnd
  · rw [add_id_of_not_mem hv h]
    simp [List.nodup_append, hnd, h]

/-! ## newTokens lemmas -/

theorem mem_newTokens (u : String) :
    ∀ (ts seen : List String),
      u ∈ newTokens seen ts ↔ u ∈ ts ∧ u ∉ seen := by
  intro ts
  induction ts with
  | nil => intro seen; simp [newTokens]
  | cons t rest ih =>
      intro seen
      by_cases h : t ∈ seen
      · rw [newTokens, if_pos h, ih]
        simp only [List.mem_cons]
        constructor
        · rintro ⟨h1, h2⟩; exact ⟨Or.inr h1, h2⟩
        · rintro ⟨rfl | h1, h2⟩
          · exact absurd h h2
          · exact ⟨h1, h2⟩
      · simp only [newTokens, if_neg h, List.mem_cons, ih, List.mem_append,
          List.mem_singleton]
        constructor
        · rintro (rfl | ⟨h1, h2⟩)
          · exact ⟨Or.inl rfl, h⟩
          · exact ⟨Or.inr h1, fun hc => h2 (Or.inl hc)⟩
        · rintro ⟨rfl | h1, h2⟩
          · exact Or.inl rfl
          · by_cases hu : u = t
            · exact Or.inl hu
            · exact Or.inr ⟨h1, by simp [h2, hu]⟩

theorem newTokens_eq_self :
    ∀ (ts seen : List String), ts.Nodup → (∀ t ∈ ts, t ∉ seen) →
      newTokens seen ts = ts := by
  intro ts
  induction ts with
  | nil => intro seen _ _; rfl
  | cons t rest ih =>
      intro seen hnd hfresh
      have ht : t ∉ seen := hfresh t (List.mem_cons_self t rest)
      simp only [newTokens, if_neg ht]
      congr 1
      refine ih _ (List.Nodup.of_cons hnd) ?_
      intro u hu
      simp only [List.mem_append, List.mem_singleton]
      rintro (hs | rfl)
      · exact hfresh u (List.mem_cons_of_mem _ hu) hs
      · exact (List.nodup_cons.mp hnd).1 hu

theorem length_newTokens :
    ∀ (ts seen : List String),
      (newTokens seen ts).length = (ts.toFinset \ seen.toFinset).card := by
  intro ts
  induction ts with
  | nil => intro seen; simp [newTokens]
  | cons t rest ih =>
      intro seen
      by_cases h : t ∈ seen
      · rw [newTokens, if_pos h, ih]
        congr 1
        ext x
        simp only [Finset.mem_sdiff, List.mem_toFinset, List.mem_cons]
        constructor
        · rintro ⟨hx, hs⟩; exact ⟨Or.inr hx, hs⟩
        · rintro ⟨hx | hx, hs⟩
          · exact absurd (by rw [hx]; exact h) hs
          · exact ⟨hx, hs⟩
      · rw [newTokens, if_neg h]
        simp only [List.length_cons, ih]
        have hset : rest.toFinset \ (seen ++ [t]).toFinset =
            ((t :: rest).toFinset \ seen.toFinset).erase t := by
          ext x
          by_cases hxt : x = t
          · subst hxt
            simp
          · simp only [Finset.mem_sdiff, List.mem_toFinset, List.mem_append,
              List.mem_cons, List.mem_singleton, Finset.mem_erase, ne_eq, hxt]
            tauto
        rw [hset]
        have htmem : t ∈ (t :: rest).toFinset \ seen.toFinset := by
          simp [List.mem_toFinset, h]
        rw [Finset.card_erase_of_mem htmem]
        have hpos : 0 < ((t :: rest).toFinset \ seen.toFinset).card :=
          Finset.card_pos.mpr ⟨t, htmem⟩
        omega

/-! ## fromList lemmas -/

theorem foldl_add_spec (ts : List String) :
    ∀ (v : Vocab), v.Inv →
      (ts.foldl Vocab.add v).id_to_token =
          v.id_to_token ++ newTokens v.id_to_token ts ∧
        (ts.foldl Vocab.add v).Inv := by
  induction ts with
  | nil => intro v hv; simp [newTokens, hv]
  | cons t rest ih =>
      intro v hv
      rw [List.foldl_cons]
      by_cases h : t ∈ v.id_to_token
      · have hid := add_id_of_mem hv h
        obtain ⟨h1, h2⟩ := ih (v.add t) (Inv_add hv t)
        rw [h1, hid]
        exact ⟨by rw [newTokens, if_pos h], h2⟩
      · have hid := add_id_of_not_mem hv h
        obtain ⟨h1, h2⟩ := ih (v.add t) (Inv_add hv t)
        rw [h1, hid]
        refine ⟨?_, h2⟩
        rw [newTokens, if_neg h, List.append_assoc]
        rfl

theorem fromList_id_to_token (ts : List String) :
    (Vocab.fromList ts).id_to_token = newTokens [] ts := by
  have := foldl_add_spec ts Vocab.empty Inv_empty
  simpa [Vocab.fromList, Vocab.empty] using this.1

theorem fromList_Inv (ts : List String) : (Vocab.fromList ts).Inv :=
  (foldl_add_spec ts Vocab.empty Inv_empty).2

theorem fromList_id_to_token_of_nodup {ts : List String} (hnd : ts.Nodup) :
    (Vocab.fromList ts).id_to_token = ts := by
  rw [fromList_id_to_token]
  exact newTokens_eq_self ts [] hnd (by simp)

/-! ## Vocab.load lemmas -/

theorem loadDefaultAux_cons (v : Vocab) (i : Nat) (line : String)
    (rest : List String) :
    Vocab.loadDefaultAux v i (line :: rest) =
      if (dget v.token_to_id (rstripCRLF line)).isSome then
        ((Vocab.loadDefaultAux v (i + 1) rest).1,
          (i + 1) :: (Vocab.loadDefaultAux v (i + 1) rest).2)
      else
        Vocab.loadDefaultAux (v.add (rstripCRLF line)) (i + 1) rest := by
  by_cases h : (dget v.token_to_id (rstripCRLF line)).isSome
  · simp [Vocab.loadDefaultAux, h]
  · have h0 : dget v.token_to_id (rstripCRLF line) = none := by
      cases hg : dget v.token_to_id (rstripCRLF line) <;> simp_all
    rw [if_neg h]
    simp [Vocab.loadDefaultAux, h, add_of_none h0, dset_of_none _ _ _ h0]

theorem loadDefaultAux_spec (lines : List String) :
    ∀ (v : Vocab) (i : Nat), v.Inv →
      (Vocab.loadDefaultAux v i lines).1.id_to_token =
          v.id_to_token ++ newTokens v.id_to_token (lines.map rstripCRLF) ∧
        (Vocab.loadDefaultAux v i lines).2 =
          warnsOf v.id_to_token i (lines.map rstripCRLF) ∧
        (Vocab.loadDefaultAux v i lines).1.Inv := by
  induction lines with
  | nil =>
      intro v i hv
      exact ⟨by simp [Vocab.loadDefaultAux, newTokens],
        by simp [Vocab.loadDefaultAux, warnsOf], hv⟩
  | cons line rest ih =>
      intro v i hv
      rw [loadDefaultAux_cons]
      by_cases h : rstripCRLF line ∈ v.id_to_token
      · have hs : (dget v.token_to_id (rstripCRLF line)).isSome := (hv _).mpr h
        rw [if_pos hs]
        obtain ⟨h1, h2, h3⟩ := ih v (i + 1) hv
        refine ⟨?_, ?_, h3⟩
        · simpa [newTokens, h] using h1
        · simp only [List.map_cons, warnsOf, if_pos h]
          exact congrArg _ h2
      · have hs : ¬ (dget v.token_to_id (rstripCRLF line)).isSome := fun hc =>
          h ((hv _).mp hc)
        rw [if_neg hs]
        have hadd : (v.add (rstripCRLF line)).id_to_token =
            v.id_to_token ++ [rstripCRLF line] := add_id_of_not_mem hv h
        obtain ⟨h1, h2, h3⟩ := ih (v.add (rstripCRLF line)) (i + 1) (Inv_add hv _)
        refine ⟨?_, ?_, h3⟩
        · rw [h1, hadd]
          simp only [List.map_cons, newTokens, if_neg h, List.append_assoc]
          rfl
        · rw [h2, hadd]
          simp only [List.map_cons, warnsOf, if_neg h]

theorem mem_warnsOf (j : Nat) :
    ∀ (ts seen : List String) (i : Nat),
      j ∈ warnsOf seen i ts ↔
        ∃ k, k < ts.length ∧ j = i + k + 1 ∧
          (ts.getD k emptyStr ∈ seen ∨ ts.getD k emptyStr ∈ ts.take k) := by
  intro ts
  induction ts with
  | nil => intro seen i; simp [warnsOf]
  | cons t rest ih =>
      intro seen i
      by_cases h : t ∈ seen
      · rw [warnsOf, if_pos h]
        simp only [List.mem_cons, ih]
        constructor
        · rintro (rfl | ⟨k, hk, rfl, hmem⟩)
          · exact ⟨0, by simp, by omega, Or.inl (by simpa using h)⟩
          · refine ⟨k + 1, by simpa using Nat.succ_lt_succ hk, by omega, ?_⟩
            rw [List.getD_cons_succ, List.take_succ_cons]
            rcases hmem with hm | hm
            · exact Or.inl hm
            · exact Or.inr (List.mem_cons_of_mem t hm)
        · rintro ⟨k, hk, rfl, hmem⟩
          cases k with
          | zero => exact Or.inl (by omega)
          | succ k' =>
              refine Or.inr ⟨k', by simpa using Nat.lt_of_succ_lt_succ hk,
                by omega, ?_⟩
              rw [List.getD_cons_succ, List.take_succ_cons] at hmem
              rcases hmem with hm | hm
              · exact Or.inl hm
              · rcases List.mem_cons.mp hm with he | he
                · exact Or.inl (he.symm ▸ h)
                · exact Or.inr he
      · rw [warnsOf, if_neg h]
        rw [ih]
        constructor
        · rintro ⟨k, hk, rfl, hmem⟩
          refine ⟨k + 1, by simpa using Nat.succ_lt_succ hk, by omega, ?_⟩
          rw [List.getD_cons_succ, List.take_succ_cons]
          rcases hmem with hm | hm
          · rcases List.mem_append.mp hm with hm' | hm'
            · exact Or.inl hm'
            · have hm'' : rest.getD k emptyStr = t := List.mem_singleton.mp hm'
              exact Or.inr (by rw [hm'']; exact List.mem_cons_self t _)
          · exact Or.inr (List.mem_cons_of_mem t hm)
        · rintro ⟨k, hk, rfl, hmem⟩
          cases k with
          | zero =>
              rcases hmem with hm | hm
              · exact absurd (by simpa using hm) h
              · simp at hm
          | succ k' =>
              refine ⟨k', by simpa using Nat.lt_of_succ_lt_succ hk, by omega, ?_⟩
              rw [List.getD_cons_succ, List.take_succ_cons] at hmem
              rcases hmem with hm | hm
              · exact Or.inl (List.mem_append.mpr (Or.inl hm))
              · rcases List.mem_cons.mp hm with he | he
                · exact Or.inl (List.mem_append.mpr
                    (Or.inr (List.mem_singleton.mpr he)))
                · exact Or.inr he

theorem load_default_eq (lines : List String) :
    Vocab.load Vocab.empty fmtDefault lines =
      Except.ok (Vocab.loadDefaultAux Vocab.empty 0 lines) := by
  simp only [Vocab.load]
  rw [if_neg (by simp), if_neg (by decide)]

theorem serialize_foldl_data (ts : List String) :
    ∀ (acc : String),
      (ts.foldl (fun a t => a ++ t ++ lineFeed) acc).data =
        acc.data ++ serializeData ts := by
  induction ts with
  | nil => intro acc; simp [serializeData]
  | cons t rest ih =>
      intro acc
      rw [List.foldl_cons, ih, String.data_append, String.data_append]
      have hl : lineFeed.data = ['\n'] := rfl
      rw [hl, serializeData]
      simp [List.append_assoc]

theorem splitLinesAux_line (rest : List Char) :
    ∀ (cs acc : List Char), '\n' ∉ cs →
      splitLinesAux (cs ++ '\n' :: rest) acc =
        String.mk (acc.reverse ++ cs ++ ['\n']) :: splitLinesAux rest [] := by
  intro cs
  induction cs with
  | nil =>
      intro acc _
      simp [splitLinesAux]
  | cons c cs ih =>
      intro acc h
      have hc : ¬ c = '\n' := by
        intro hh
        exact h (hh ▸ List.mem_cons_self c cs)
      rw [List.cons_append]
      show splitLinesAux (c :: (cs ++ '\n' :: rest)) acc = _
      rw [splitLinesAux, if_neg hc,
        ih (c :: acc) (fun hm => h (List.mem_cons_of_mem c hm))]
      congr 2
      simp [List.append_assoc]

theorem splitLinesAux_serializeData :
    ∀ (ts : List String), (∀ t ∈ ts, '\n' ∉ t.data) →
      splitLinesAux (serializeData ts) [] =
        ts.map (fun t => t ++ lineFeed) := by
  intro ts
  induction ts with
  | nil => intro _; rfl
  | cons t rest ih =>
      intro h
      show splitLinesAux (t.data ++ '\n' :: serializeData rest) [] = _
      rw [splitLinesAux_line (serializeData rest) t.data []
        (h t (List.mem_cons_self t rest))]
      rw [ih (fun u hu => h u (List.mem_cons_of_mem t hu))]
      rw [List.map_cons]
      have hhead : String.mk (([] : List Char).reverse ++ t.data ++ ['\n']) =
          t ++ lineFeed := String.ext rfl
      rw [hhead]

theorem rstripCRLF_append_lineFeed (t : String) (h : rstripCRLF t = t) :
    rstripCRLF (t ++ lineFeed) = t := by
  have hdata : (t ++ lineFeed).data = t.data ++ ['\n'] := by
    rw [String.data_append]
    rfl
  show String.mk
    (((t ++ lineFeed).data.reverse.dropWhile
      (fun c => decide (c = '\r' ∨ c = '\n'))).reverse) = t
  rw [hdata, List.reverse_append]
  show String.mk
    ((List.dropWhile (fun c => decide (c = '\r' ∨ c = '\n'))
      ('\n' :: t.data.reverse)).reverse) = t
  rw [List.dropWhile_cons, if_pos (by decide)]
  exact h

/-- C3 counterexample: the round-trip law fails on duplicate-free token
lists in the real program.  The token `"a\nb"` is written by `serialize` as
the two file lines `"a\n"` and `"b"`, so loading the written file yields the
two tokens `"a"` and `"b"` (size 2) instead of the original one-token
vocabulary; similarly the token `"a\r"` is written as the line `"a\r\n"`,
which `rstrip("\r\n")` turns back into `"a"`. -/
theorem serialize_load_round_trip_counterexample :
    (Vocab.fromList [tokNl]).id_to_token = [tokNl] ∧
      (Vocab.load Vocab.empty fmtDefault
          (fileLines ((Vocab.fromList [tokNl]).serialize))).map
        (fun r => r.1.id_to_token) = Except.ok [tokA, tokB] ∧
      [tokA, tokB] ≠ [tokNl] ∧
      (Vocab.fromList [tokCr]).id_to_token = [tokCr] ∧
      (Vocab.load Vocab.empty fmtDefault
          (fileLines ((Vocab.fromList [tokCr]).serialize))).map
        (fun r => r.1.id_to_token) = Except.ok [tokA] ∧
      [tokA] ≠ [tokCr] :=
  ⟨by decide, rfl, by decide, by decide, rfl, by decide⟩

/-- C3 (amended): for every Vocabulary built from a token list with no
duplicate tokens whose tokens are representable in the line-based "default"
format — no token contains a newline character and none ends in
carriage-return or newline characters — writing it with `serialize` and
loading the written file with format `"default"` into a fresh empty
Vocabulary reproduces exactly the same `id_to_token` sequence and the same
size. -/
theorem serialize_load_round_trip (ts : List String) (hnd : ts.Nodup)
    (hnl : ∀ t ∈ ts, '\n' ∉ t.data)
    (hclean : ∀ t ∈ ts, rstripCRLF t = t) :
    ∃ v warns,
      Vocab.load Vocab.empty fmtDefault
          (fileLines ((Vocab.fromList ts).serialize)) =
          Except.ok (v, warns) ∧
        v.id_to_token = (Vocab.fromList ts).id_to_token ∧
        v.size = (Vocab.fromList ts).size := by
  have hid : (Vocab.fromList ts).id_to_token = ts :=
    fromList_id_to_token_of_nodup hnd
  have hser : fileLines ((Vocab.fromList ts).serialize) =
      ts.map (fun t => t ++ lineFeed) := by
    show splitLinesAux ((Vocab.fromList ts).serialize).data [] = _
    have hdata : ((Vocab.fromList ts).serialize).data = serializeData ts := by
      show ((Vocab.fromList ts).id_to_token.foldl
        (fun a t => a ++ t ++ lineFeed) emptyStr).data = _
      rw [hid, serialize_foldl_data]
      rfl
    rw [hdata]
    exact splitLinesAux_serializeData ts hnl
  have hmap : (ts.map (fun t => t ++ lineFeed)).map rstripCRLF = ts := by
    rw [List.map_map]
    have hpt : ∀ t ∈ ts, (rstripCRLF ∘ fun t => t ++ lineFeed) t = t := by
      intro t ht
      show rstripCRLF (t ++ lineFeed) = t
      exact rstripCRLF_append_lineFeed t (hclean t ht)
    rw [List.map_congr_left hpt, List.map_id']
  obtain ⟨h1, _h2, _h3⟩ :=
    loadDefaultAux_spec (ts.map (fun t => t ++ lineFeed)) Vocab.empty 0
      Inv_empty
  rw [hser]
  refine ⟨(Vocab.loadDefaultAux Vocab.empty 0
      (ts.map (fun t => t ++ lineFeed))).1,
    (Vocab.loadDefaultAux Vocab.empty 0 (ts.map (fun t => t ++ lineFeed))).2,
    load_default_eq _, ?_, ?_⟩
  · rw [h1, hmap, hid]
    show [] ++ newTokens [] ts = ts
    rw [List.nil_append, newTokens_eq_self ts [] hnd (by simp)]
  · show (Vocab.loadDefaultAux Vocab.empty 0
      (ts.map (fun t => t ++ lineFeed))).1.id_to_token.length =
      (Vocab.fromList ts).id_to_token.length
    rw [h1, hmap, hid]
    show ([] ++ newTokens [] ts).length = ts.length
    rw [List.nil_append, newTokens_eq_self ts [] hnd (by simp)]

theorem serialize_load_round_trip_witness :
    [tokA, tokB].Nodup ∧ (∀ t ∈ [tokA, tokB], '\n' ∉ String.data t) ∧
      (∀ t ∈ [tokA, tokB], rstripCRLF t = t) ∧
      ∃ v warns,
        Vocab.load Vocab.empty fmtDefault
            (fileLines ((Vocab.fromList [tokA, tokB]).serialize)) =
            Except.ok (v, warns) ∧
          v.id_to_token = (Vocab.fromList [tokA, tokB]).id_to_token ∧
          v.size = (Vocab.fromList [tokA, tokB]).size :=
  ⟨by decide, by decide, by decide,
    serialize_load_round_trip [tokA, tokB] (by decide) (by decide)
      (by decide)⟩

/-- C8: loading a vocabulary file that contains the same token on two or more
lines into a fresh vocabulary does not raise, yields a vocabulary whose size
is the number of unique (stripped) tokens, keeps the first occurrence of each
token with its id (the resulting `id_to_token` is the first-occurrence
de-duplication of the stripped lines), and warns exactly on the lines whose
token already occurred earlier, recording the duplicate's 1-based line
number. -/
theorem load_duplicate_token_warns (lines : List String)
    (hdup : ∃ i j, i < j ∧ j < lines.length ∧
      (lines.map rstripCRLF).getD i emptyStr =
        (lines.map rstripCRLF).getD j emptyStr) :
    ∃ v warns,
      Vocab.load Vocab.empty fmtDefault lines = Except.ok (v, warns) ∧
        v.size = (lines.map rstripCRLF).toFinset.card ∧
        v.id_to_token = newTokens [] (lines.map rstripCRLF) ∧
        (∀ k, k < lines.length →
          ((k + 1) ∈ warns ↔
            (lines.map rstripCRLF).getD k emptyStr ∈
              (lines.map rstripCRLF).take k)) ∧
        warns ≠ [] := by
  obtain ⟨h1, h2, _h3⟩ := loadDefaultAux_spec lines Vocab.empty 0 Inv_empty
  have hlen : (lines.map rstripCRLF).length = lines.length := List.length_map _ _
  refine ⟨(Vocab.loadDefaultAux Vocab.empty 0 lines).1,
    (Vocab.loadDefaultAux Vocab.empty 0 lines).2, load_default_eq lines, ?_, ?_,
    ?_, ?_⟩
  · show (Vocab.loadDefaultAux Vocab.empty 0 lines).1.id_to_token.length = _
    rw [h1]
    show ([] ++ newTokens [] (lines.map rstripCRLF)).length = _
    rw [List.nil_append, length_newTokens]
    simp
  · rw [h1]
    exact List.nil_append _
  · intro k hk
    rw [h2]
    show (k + 1) ∈ warnsOf [] 0 (lines.map rstripCRLF) ↔ _
    rw [mem_warnsOf]
    constructor
    · rintro ⟨k', hk', heq, hmem⟩
      have : k' = k := by omega
      subst this
      rcases hmem with hm | hm
      · simp at hm
      · exact hm
    · intro hmem
      exact ⟨k, by omega, by omega, Or.inr hmem⟩
  · obtain ⟨i, j, hij, hj, heq⟩ := hdup
    have hmem : (lines.map rstripCRLF).getD j emptyStr ∈
        (lines.map rstripCRLF).take j := by
      rw [← heq]
      have hi' : i < ((lines.map rstripCRLF).take j).length := by
        rw [List.length_take]
        omega
      have hg := List.getElem_mem hi'
      rw [List.getElem_take] at hg
      rwa [List.getD_eq_getElem (lines.map rstripCRLF) emptyStr (by omega)]
    have hwmem : (j + 1) ∈ (Vocab.loadDefaultAux Vocab.empty 0 lines).2 := by
      rw [h2]
      show (j + 1) ∈ warnsOf [] 0 (lines.map rstripCRLF)
      rw [mem_warnsOf]
      exact ⟨j, by omega, by omega, Or.inr hmem⟩
    exact List.ne_nil_of_mem hwmem

theorem load_duplicate_token_warns_witness :
    (∃ i j, i < j ∧ j < ([tokA, tokB, tokA] : List String).length ∧
      (([tokA, tokB, tokA] : List String).map rstripCRLF).getD i emptyStr =
        (([tokA, tokB, tokA] : List String).map rstripCRLF).getD j emptyStr) ∧
    ∃ v warns,
      Vocab.load Vocab.empty fmtDefault [tokA, tokB, tokA] =
          Except.ok (v, warns) ∧
        v.size = (([tokA, tokB, tokA] : List String).map rstripCRLF).toFinset.card ∧
        v.id_to_token = newTokens [] (([tokA, tokB, tokA] : List String).map rstripCRLF) ∧
        (∀ k, k < ([tokA, tokB, tokA] : List String).length →
          ((k + 1) ∈ warns ↔
            (([tokA, tokB, tokA] : List String).map rstripCRLF).getD k emptyStr ∈
              (([tokA, tokB, tokA] : List String).map rstripCRLF).take k)) ∧
        warns ≠ [] :=
  ⟨⟨0, 2, by decide, by decide, by decide⟩,
    load_duplicate_token_warns [tokA, tokB, tokA]
      ⟨0, 2, by decide, by decide, by decide⟩⟩

/-! ## sortedIds lemmas -/

theorem freqDescLe_total (f : Nat → Freq) (a b : Nat) :
    freqDescLe f a b ∨ freqDescLe f b a := by
  rcases lt_trichotomy (f a) (f b) with h | h | h
  · exact Or.inr (Or.inl h)
  · rcases Nat.le_total a b with hab | hab
    · exact Or.inl (Or.inr ⟨h, hab⟩)
    · exact Or.inr (Or.inr ⟨h.symm, hab⟩)
  · exact Or.inl (Or.inl h)

theorem freqDescLe_trans (f : Nat → Freq) (a b c : Nat)
    (h1 : freqDescLe f a b) (h2 : freqDescLe f b c) : freqDescLe f a c := by
  rcases h1 with h1 | ⟨h1e, h1l⟩ <;> rcases h2 with h2 | ⟨h2e, h2l⟩
  · exact Or.inl (lt_trans h2 h1)
  · exact Or.inl (h2e ▸ h1)
  · exact Or.inl (h1e.symm ▸ h2)
  · exact Or.inr ⟨h1e.trans h2e, le_trans h1l h2l⟩

theorem freqDescLe_le {f : Nat → Freq} {a b : Nat} (h : freqDescLe f a b) :
    f b ≤ f a := by
  rcases h with h | ⟨he, _⟩
  · exact le_of_lt h
  · exact le_of_eq he.symm

theorem sortedIds_perm (v : Vocab) : v.sortedIds.Perm (List.range v.size) :=
  List.perm_insertionSort _ _

theorem sortedIds_length (v : Vocab) : v.sortedIds.length = v.size := by
  rw [(sortedIds_perm v).length_eq, List.length_range]

theorem mem_sortedIds {v : Vocab} {i : Nat} : i ∈ v.sortedIds ↔ i < v.size := by
  rw [(sortedIds_perm v).mem_iff, List.mem_range]

theorem sortedIds_nodup (v : Vocab) : v.sortedIds.Nodup :=
  ((sortedIds_perm v).nodup_iff).mpr (List.nodup_range v.size)

theorem sortedIds_pairwise (v : Vocab) :
    v.sortedIds.Pairwise (freqDescLe v.freqAt) := by
  haveI : IsTotal Nat (freqDescLe v.freqAt) := ⟨freqDescLe_total v.freqAt⟩
  haveI : IsTrans Nat (freqDescLe v.freqAt) := ⟨freqDescLe_trans v.freqAt⟩
  exact List.sorted_insertionSort _ _

/-! ## pruneScan and pruneSize lemmas -/

theorem pruneScan_eq (v : Vocab) (minf : Freq) :
    ∀ (l : List Nat) (ns : Nat),
      pruneScan v minf l ns =
        ns - (l.takeWhile (fun id => decide (v.freqAt id < minf))).length := by
  intro l
  induction l with
  | nil => intro ns; simp [pruneScan]
  | cons x rest ih =>
      intro ns
      by_cases h : v.freqAt x < minf
      · rw [pruneScan, if_pos h, ih, List.takeWhile_cons, if_pos (by simpa using h)]
        simp only [List.length_cons]
        omega
      · rw [pruneScan, if_neg h, List.takeWhile_cons, if_neg (by simpa using h)]
        simp

theorem takeWhile_eq_take_length {α : Type} (p : α → Bool) :
    ∀ (l : List α), l.takeWhile p = l.take (l.takeWhile p).length := by
  intro l
  induction l with
  | nil => rfl
  | cons a rest ih =>
      by_cases hp : p a
      · rw [List.takeWhile_cons, if_pos hp, List.length_cons,
          List.take_succ_cons, ← ih]
      · rw [List.takeWhile_cons, if_neg hp]
        rfl

theorem takeWhile_boundary {α : Type} (p : α → Bool) (dflt : α) :
    ∀ (l : List α), (l.takeWhile p).length < l.length →
      p (l.getD (l.takeWhile p).length dflt) = false := by
  intro l
  induction l with
  | nil => intro h; simp at h
  | cons a rest ih =>
      intro h
      by_cases hp : p a
      · rw [List.takeWhile_cons, if_pos hp] at h ⊢
        simp only [List.length_cons] at h ⊢
        rw [List.getD_cons_succ]
        exact ih (by omega)
      · rw [List.takeWhile_cons, if_neg hp] at h ⊢
        simp only [List.length_nil, List.getD_cons_zero]
        simpa using hp

theorem pruneSize_uncapped (v : Vocab) (minf : Freq) :
    v.pruneSize 0 minf = v.size -
      (((v.sortedIds.drop 1).reverse).takeWhile
        (fun id => decide (v.freqAt id < minf))).length := by
  simp only [Vocab.pruneSize, if_neg (lt_irrefl 0)]
  rw [pruneScan_eq, sortedIds_length]

theorem pruneSize_capped (v : Vocab) (minf : Freq) {mx : Nat} (h : 0 < mx) :
    v.pruneSize mx minf = min (v.pruneSize 0 minf) mx := by
  simp only [Vocab.pruneSize, if_pos h, if_neg (lt_irrefl 0)]

theorem tail_takeWhile_le (v : Vocab) (minf : Freq) :
    (((v.sortedIds.drop 1).reverse).takeWhile
        (fun id => decide (v.freqAt id < minf))).length ≤ v.size - 1 := by
  calc (((v.sortedIds.drop 1).reverse).takeWhile _).length
      ≤ ((v.sortedIds.drop 1).reverse).length :=
        (List.takeWhile_sublist _).length_le
    _ = v.size - 1 := by
        rw [List.length_reverse, List.length_drop, sortedIds_length]

theorem pruneSize_pos (v : Vocab) (minf : Freq) (h : 0 < v.size) :
    1 ≤ v.pruneSize 0 minf := by
  rw [pruneSize_uncapped]
  have := tail_takeWhile_le v minf
  omega

theorem pruneSize_le_size (v : Vocab) (mx : Nat) (minf : Freq) :
    v.pruneSize mx minf ≤ v.size := by
  rcases Nat.eq_zero_or_pos mx with h | h
  · subst h
    rw [pruneSize_uncapped]
    omega
  · rw [pruneSize_capped v minf h, pruneSize_uncapped]
    omega

theorem keptIds_length (v : Vocab) (mx : Nat) (minf : Freq) :
    (v.keptIds mx minf).length = v.pruneSize mx minf := by
  rw [Vocab.keptIds, List.length_take, sortedIds_length]
  exact Nat.min_eq_left (pruneSize_le_size v mx minf)

theorem dropped_below (v : Vocab) (minf : Freq) :
    ∀ x ∈ v.sortedIds.drop (v.pruneSize 0 minf), v.freqAt x < minf := by
  intro x hx
  by_cases hn : v.size = 0
  · have hs : v.sortedIds = [] :=
      List.eq_nil_of_length_eq_zero (by rw [sortedIds_length, hn])
    rw [hs] at hx
    simp at hx
  · have hn' : 1 ≤ v.size := by omega
    have hd := tail_takeWhile_le v minf
    have hlen := sortedIds_length v
    have hx' : x ∈ (v.sortedIds.drop 1).drop
        (v.sortedIds.length - 1 -
          (((v.sortedIds.drop 1).reverse).takeWhile
            (fun id => decide (v.freqAt id < minf))).length) := by
      rw [List.drop_drop]
      have harith : 1 + (v.sortedIds.length - 1 -
          (((v.sortedIds.drop 1).reverse).takeWhile
            (fun id => decide (v.freqAt id < minf))).length) =
          v.pruneSize 0 minf := by
        rw [pruneSize_uncapped]
        omega
      rwa [harith]
    have hx'' : x ∈ ((v.sortedIds.drop 1).reverse).takeWhile
        (fun id => decide (v.freqAt id < minf)) := by
      have htake := takeWhile_eq_take_length
        (fun id => decide (v.freqAt id < minf)) ((v.sortedIds.drop 1).reverse)
      rw [htake, List.take_reverse, List.mem_reverse]
      have : (v.sortedIds.drop 1).length -
          (((v.sortedIds.drop 1).reverse).takeWhile
            (fun id => decide (v.freqAt id < minf))).length =
          v.sortedIds.length - 1 -
          (((v.sortedIds.drop 1).reverse).takeWhile
            (fun id => decide (v.freqAt id < minf))).length := by
        rw [List.length_drop]
      rwa [this]
    have := List.mem_takeWhile_imp hx''
    simpa using this

theorem kept_tail_ge (v : Vocab) (minf : Freq) {idx : Nat}
    (h1 : 1 ≤ idx) (h2 : idx < v.pruneSize 0 minf) :
    minf ≤ v.freqAt (v.sortedIds.getD idx 0) := by
  have hlen := sortedIds_length v
  have hd := tail_takeWhile_le v minf
  have hsz := pruneSize_uncapped v minf
  have hn : 2 ≤ v.pruneSize 0 minf := by omega
  have hnsize : 2 ≤ v.size := by
    have := pruneSize_le_size v 0 minf
    omega
  set P : Nat → Bool := fun id => decide (v.freqAt id < minf) with hP
  set d := (((v.sortedIds.drop 1).reverse).takeWhile P).length with hdd
  have hdlt : d < ((v.sortedIds.drop 1).reverse).length := by
    rw [List.length_reverse, List.length_drop, hlen]
    omega
  have hb := takeWhile_boundary P 0 ((v.sortedIds.drop 1).reverse) hdlt
  -- identify the boundary element with sortedIds[pruneSize - 1]
  have hidx : ((v.sortedIds.drop 1).reverse).getD d 0 =
      v.sortedIds.getD (v.pruneSize 0 minf - 1) 0 := by
    have h1' : d < (v.sortedIds.drop 1).length := by
      rwa [List.length_reverse] at hdlt
    rw [List.getD_eq_getElem?_getD, List.getD_eq_getElem?_getD]
    rw [List.getElem?_reverse h1']
    rw [List.getElem?_drop]
    congr 2
    rw [List.length_drop, hlen]
    omega
  rw [hidx] at hb
  have hbound : minf ≤ v.freqAt (v.sortedIds.getD (v.pruneSize 0 minf - 1) 0) := by
    have : ¬ (v.freqAt (v.sortedIds.getD (v.pruneSize 0 minf - 1) 0) < minf) := by
      intro hc
      rw [hP] at hb
      simp only [decide_eq_false_iff_not] at hb
      exact hb hc
    exact not_lt.mp this
  rcases Nat.lt_or_ge idx (v.pruneSize 0 minf - 1) with hlt | hge
  · -- pairwise between positions idx and pruneSize-1
    have hpw := (List.pairwise_iff_getElem).mp (sortedIds_pairwise v)
    have hi1 : idx < v.sortedIds.length := by omega
    have hi2 : v.pruneSize 0 minf - 1 < v.sortedIds.length := by
      have := pruneSize_le_size v 0 minf
      omega
    have hrel := hpw idx (v.pruneSize 0 minf - 1) hi1 hi2 hlt
    have hle := freqDescLe_le hrel
    have hg1 : v.sortedIds.getD idx 0 = v.sortedIds[idx] :=
      List.getD_eq_getElem _ _ hi1
    have hg2 : v.sortedIds.getD (v.pruneSize 0 minf - 1) 0 =
        v.sortedIds[v.pruneSize 0 minf - 1] :=
      List.getD_eq_getElem _ _ hi2
    rw [hg2] at hbound
    rw [hg1]
    exact le_trans hbound hle
  · have : idx = v.pruneSize 0 minf - 1 := by omega
    rw [this]
    exact hbound

/-! ## prune rebuild lemmas -/

theorem pruneFold_fields (v : Vocab) :
    ∀ (ids : List Nat) (nv : Vocab),
      ((ids.foldl (pruneStep v) nv).id_to_token =
          nv.id_to_token ++ ids.map v.tokenAt) ∧
        ((ids.foldl (pruneStep v) nv).frequency =
          nv.frequency ++ ids.map v.freqAt) := by
  intro ids
  induction ids with
  | nil => intro nv; simp
  | cons x rest ih =>
      intro nv
      rw [List.foldl_cons]
      obtain ⟨h1, h2⟩ := ih (pruneStep v nv x)
      constructor
      · rw [h1]
        simp [pruneStep, List.append_assoc]
      · rw [h2]
        simp [pruneStep, List.append_assoc]

theorem Inv_append_token {v : Vocab} (hv : v.Inv) {t : String}
    (h : dget v.token_to_id t = none) (n : Nat) (fr : Freq) :
    Vocab.Inv ⟨v.token_to_id ++ [(t, n)], v.id_to_token ++ [t],
      v.frequency ++ [fr]⟩ := by
  intro u
  show (dget (v.token_to_id ++ [(t, n)]) u).isSome ↔ u ∈ v.id_to_token ++ [t]
  rw [dget_append, dget_single]
  by_cases hu : t = u
  · subst hu
    simp [h]
  · have := hv u
    cases hg : dget v.token_to_id u <;>
      simp_all [Option.or, List.mem_append, Ne.symm hu]

theorem pruneFold_dget (v : Vocab) :
    ∀ (ids : List Nat) (nv : Vocab),
      (nv.id_to_token ++ ids.map v.tokenAt).Nodup → nv.Inv →
      ((∀ t, t ∈ nv.id_to_token →
          dget (ids.foldl (pruneStep v) nv).token_to_id t =
            dget nv.token_to_id t) ∧
        (∀ q, q < ids.length →
          dget (ids.foldl (pruneStep v) nv).token_to_id
              (v.tokenAt (ids.getD q 0)) =
            some (nv.id_to_token.length + q))) := by
  intro ids
  induction ids with
  | nil =>
      intro nv _ _
      exact ⟨fun t _ => rfl, fun q hq => absurd hq (Nat.not_lt_zero q)⟩
  | cons x rest ih =>
      intro nv hnd hv
      have hx : v.tokenAt x ∉ nv.id_to_token := by
        rcases List.nodup_append.mp hnd with ⟨_, _, hdisj⟩
        intro hc
        exact hdisj hc (by simp)
      have hnone : dget nv.token_to_id (v.tokenAt x) = none := by
        cases hg : dget nv.token_to_id (v.tokenAt x) with
        | none => rfl
        | some _ => exact absurd ((hv _).mp (by simp [hg])) hx
      have hstep : pruneStep v nv x =
          ⟨nv.token_to_id ++ [(v.tokenAt x, nv.id_to_token.length)],
            nv.id_to_token ++ [v.tokenAt x], nv.frequency ++ [v.freqAt x]⟩ := by
        simp [pruneStep, dset_of_none _ _ _ hnone]
      have hnd' : ((pruneStep v nv x).id_to_token ++ rest.map v.tokenAt).Nodup := by
        rw [hstep]
        show ((nv.id_to_token ++ [v.tokenAt x]) ++ rest.map v.tokenAt).Nodup
        rw [List.append_assoc]
        simpa using hnd
      have hv' : (pruneStep v nv x).Inv := by
        rw [hstep]
        exact Inv_append_token hv hnone _ _
      obtain ⟨ihp, ihq⟩ := ih (pruneStep v nv x) hnd' hv'
      constructor
      · intro t ht
        rw [List.foldl_cons]
        rw [ihp t (by rw [hstep]; exact List.mem_append.mpr (Or.inl ht))]
        rw [hstep]
        show dget (nv.token_to_id ++ [(v.tokenAt x, nv.id_to_token.length)]) t = _
        rw [dget_append]
        have hsome : (dget nv.token_to_id t).isSome := (hv t).mpr ht
        cases hg : dget nv.token_to_id t with
        | none => rw [hg] at hsome; simp at hsome
        | some _ => simp [Option.or]
      · intro q hq
        rw [List.foldl_cons]
        cases q with
        | zero =>
            have hmem : v.tokenAt x ∈ (pruneStep v nv x).id_to_token := by
              rw [hstep]
              exact List.mem_append.mpr (Or.inr (by simp))
            rw [List.getD_cons_zero, ihp _ hmem, hstep]
            show dget (nv.token_to_id ++ [(v.tokenAt x, nv.id_to_token.length)])
              (v.tokenAt x) = _
            rw [dget_append, hnone, dget_single]
            simp [Option.or]
        | succ q' =>
            rw [List.getD_cons_succ]
            have hq' : q' < rest.length := by
              simp only [List.length_cons] at hq
              omega
            rw [ihq q' hq', hstep]
            show some ((nv.id_to_token ++ [v.tokenAt x]).length + q') = _
            simp only [List.length_append, List.length_cons, List.length_nil,
              Option.some.injEq]
            omega

theorem prune_id_to_token (v : Vocab) (mx : Nat) (minf : Freq) :
    (v.prune mx minf).id_to_token = (v.keptIds mx minf).map v.tokenAt := by
  have := (pruneFold_fields v (v.keptIds mx minf) Vocab.empty).1
  simpa [Vocab.prune, Vocab.empty] using this

theorem prune_frequency (v : Vocab) (mx : Nat) (minf : Freq) :
    (v.prune mx minf).frequency = (v.keptIds mx minf).map v.freqAt := by
  have := (pruneFold_fields v (v.keptIds mx minf) Vocab.empty).2
  simpa [Vocab.prune, Vocab.empty] using this

theorem prune_size_eq (v : Vocab) (mx : Nat) (minf : Freq) :
    (v.prune mx minf).size = v.pruneSize mx minf := by
  show (v.prune mx minf).id_to_token.length = _
  rw [prune_id_to_token, List.length_map, keptIds_length]

theorem keptIds_nodup (v : Vocab) (mx : Nat) (minf : Freq) :
    (v.keptIds mx minf).Nodup :=
  (List.take_sublist _ _).nodup (sortedIds_nodup v)

theorem keptIds_pairwise (v : Vocab) (mx : Nat) (minf : Freq) :
    (v.keptIds mx minf).Pairwise (freqDescLe v.freqAt) :=
  List.Pairwise.sublist (List.take_sublist _ _) (sortedIds_pairwise v)

theorem keptIds_getElem (v : Vocab) (mx : Nat) (minf : Freq) {a : Nat}
    (ha : a < (v.keptIds mx minf).length) :
    (v.keptIds mx minf)[a] = v.sortedIds.getD a 0 := by
  have ha2 : a < v.sortedIds.length := by
    have h1 := keptIds_length v mx minf
    have h2 := pruneSize_le_size v mx minf
    rw [sortedIds_length]
    rw [h1] at ha
    omega
  rw [List.getD_eq_getElem _ _ ha2]
  show (List.take (v.pruneSize mx minf) v.sortedIds)[a] = v.sortedIds[a]
  exact List.getElem_take v.sortedIds

theorem mem_keptIds_lt {v : Vocab} {mx : Nat} {minf : Freq} {i : Nat}
    (h : i ∈ v.keptIds mx minf) : i < v.size :=
  mem_sortedIds.mp ((List.take_sublist _ _).mem h)

theorem tokenAt_inj {v : Vocab} (hnd : v.id_to_token.Nodup) {i j : Nat}
    (hi : i < v.size) (hj : j < v.size) (h : v.tokenAt i = v.tokenAt j) :
    i = j := by
  rw [Vocab.tokenAt, Vocab.tokenAt, List.getD_eq_getElem _ _ hi,
    List.getD_eq_getElem _ _ hj] at h
  exact (List.Nodup.getElem_inj_iff hnd).mp h

theorem keptIds_map_nodup {v : Vocab} (hnd : v.id_to_token.Nodup) (mx : Nat)
    (minf : Freq) : ((v.keptIds mx minf).map v.tokenAt).Nodup :=
  List.Nodup.map_on
    (fun x hx y hy hxy =>
      tokenAt_inj hnd (mem_keptIds_lt hx) (mem_keptIds_lt hy) hxy)
    (keptIds_nodup v mx minf)

theorem special_mem_keptIds {v : Vocab} {minf : Freq} {i : Nat}
    (hi : i < v.size) (hf : v.freqAt i = ⊤) : i ∈ v.keptIds 0 minf := by
  have hmem : i ∈ v.sortedIds := mem_sortedIds.mpr hi
  rw [← List.take_append_drop (v.pruneSize 0 minf) v.sortedIds] at hmem
  rcases List.mem_append.mp hmem with h | h
  · exact h
  · have := dropped_below v minf i h
    rw [hf] at this
    exact absurd this not_top_lt

/-- C10: for every non-empty vocabulary, every `min_frequency`, and
`max_size` equal to 0 or at least 1, the pruned vocabulary is non-empty: the
below-threshold scan never examines sorted position 0, so the first entry of
the stable frequency-descending order is retained — even when its frequency
is strictly below `min_frequency` (which is why the statement holds with no
assumption on that entry's frequency). -/
theorem prune_nonempty_keeps_head (v : Vocab) (max_size : Nat) (minf : Freq)
    (hn : 0 < v.size) (hm : max_size = 0 ∨ 1 ≤ max_size) :
    0 < (v.prune max_size minf).size ∧
      (v.prune max_size minf).id_to_token.get? 0 =
        some (v.tokenAt (v.sortedIds.getD 0 0)) := by
  have hpos : 0 < v.pruneSize max_size minf := by
    rcases hm with rfl | hmx
    · have := pruneSize_pos v minf hn
      omega
    · rw [pruneSize_capped v minf hmx]
      have := pruneSize_pos v minf hn
      omega
  have h0 : 0 < v.sortedIds.length := by
    rw [sortedIds_length]
    exact hn
  constructor
  · rw [prune_size_eq]
    omega
  · rw [prune_id_to_token, List.get?_eq_getElem?, List.getElem?_map]
    have hk : (v.keptIds max_size minf)[0]? = v.sortedIds[0]? := by
      rw [Vocab.keptIds, List.getElem?_take, if_pos hpos]
    rw [hk, List.getElem?_eq_getElem h0]
    rw [List.getD_eq_getElem _ _ h0]
    rfl

theorem prune_nonempty_keeps_head_witness :
    0 < (Vocab.fromList [tokA]).size ∧
      (0 < ((Vocab.fromList [tokA]).prune 0 5).size ∧
        ((Vocab.fromList [tokA]).prune 0 5).id_to_token.get? 0 =
          some ((Vocab.fromList [tokA]).tokenAt
            ((Vocab.fromList [tokA]).sortedIds.getD 0 0))) :=
  ⟨by decide,
    prune_nonempty_keeps_head (Vocab.fromList [tokA]) 0 5 (by decide)
      (Or.inl rfl)⟩

/-- C1: every special token (frequency `+infinity`) survives `prune` with
unlimited `max_size` for every `min_frequency`, and the relative order of any
two special tokens in the pruned vocabulary equals their original relative
order (the stable descending-frequency sort keeps equal keys — in particular
the infinite ones — in original id order). -/
theorem prune_protects_special_tokens (v : Vocab) (minf : Freq)
    (hnd : v.id_to_token.Nodup) :
    (∀ i, i < v.size → v.freqAt i = ⊤ →
        v.tokenAt i ∈ (v.prune 0 minf).id_to_token) ∧
      (∀ i j, i < j → j < v.size → v.freqAt i = ⊤ → v.freqAt j = ⊤ →
        ∃ p q, p < q ∧
          (v.prune 0 minf).id_to_token.get? p = some (v.tokenAt i) ∧
          (v.prune 0 minf).id_to_token.get? q = some (v.tokenAt j)) := by
  constructor
  · intro i hi hf
    rw [prune_id_to_token]
    exact List.mem_map_of_mem _ (special_mem_keptIds hi hf)
  · intro i j hij hj hfi hfj
    have hi : i < v.size := lt_trans hij hj
    have hmi : i ∈ v.keptIds 0 minf := special_mem_keptIds hi hfi
    have hmj : j ∈ v.keptIds 0 minf := special_mem_keptIds hj hfj
    obtain ⟨a, ha, hka⟩ := List.mem_iff_getElem.mp hmi
    obtain ⟨b, hb, hkb⟩ := List.mem_iff_getElem.mp hmj
    have hab : a < b := by
      rcases Nat.lt_trichotomy a b with h | h | h
      · exact h
      · exfalso
        subst h
        rw [hka] at hkb
        omega
      · exfalso
        have hpw := (List.pairwise_iff_getElem).mp (keptIds_pairwise v 0 minf)
        have hrel := hpw b a hb ha h
        rw [hka, hkb] at hrel
        rcases hrel with hlt | ⟨_, hle⟩
        · rw [hfi] at hlt
          exact not_top_lt hlt
        · omega
    refine ⟨a, b, hab, ?_, ?_⟩
    · rw [prune_id_to_token, List.get?_eq_getElem?, List.getElem?_map,
        List.getElem?_eq_getElem ha]
      simp [hka]
    · rw [prune_id_to_token, List.get?_eq_getElem?, List.getElem?_map,
        List.getElem?_eq_getElem hb]
      simp [hkb]

theorem prune_protects_special_tokens_witness :
    ((Vocab.initWith [tokB, tokC]).add tokA).id_to_token.Nodup ∧
      ((Vocab.initWith [tokB, tokC]).add tokA).tokenAt 0 ∈
        (((Vocab.initWith [tokB, tokC]).add tokA).prune 0 3).id_to_token ∧
      ∃ p q, p < q ∧
        (((Vocab.initWith [tokB, tokC]).add tokA).prune 0 3).id_to_token.get? p =
          some (((Vocab.initWith [tokB, tokC]).add tokA).tokenAt 0) ∧
        (((Vocab.initWith [tokB, tokC]).add tokA).prune 0 3).id_to_token.get? q =
          some (((Vocab.initWith [tokB, tokC]).add tokA).tokenAt 1) :=
  ⟨by decide,
    (prune_protects_special_tokens ((Vocab.initWith [tokB, tokC]).add tokA) 3
      (by decide)).1 0 (by decide) (by decide),
    (prune_protects_special_tokens ((Vocab.initWith [tokB, tokC]).add tokA) 3
      (by decide)).2 0 1 (by decide) (by decide) (by decide) (by decide)⟩

/-- C2 counterexample: in the vocabulary built from `["a"]` the single entry
has frequency 1, strictly below `min_frequency = 2`, yet
`prune(max_size=0, min_frequency=2)` keeps it (the scan never examines sorted
position 0) — refuting the claim that prune returns exactly the entries with
frequency ≥ `min_frequency`. -/
theorem prune_min_frequency_counterexample :
    ((Vocab.fromList [tokA]).prune 0 2).id_to_token = [tokA] ∧
      (Vocab.fromList [tokA]).freqAt 0 < (2 : Freq) ∧
      (Vocab.fromList [tokA]).tokenAt 0 = tokA :=
  ⟨by decide, by decide, by decide⟩

/-- C2 (amended): `prune(max_size, min_frequency)` lists entries in stable
frequency-descending order (ties keep original id order), re-numbered densely
from 0; with unlimited `max_size` it contains exactly the entries with
frequency ≥ `min_frequency` *except* that the first entry of the sorted order
is always retained even when below the threshold; a positive `max_size` caps
the result to the first `max_size` entries of that order. -/
theorem prune_spec (v : Vocab) (max_size : Nat) (minf : Freq)
    (hnd : v.id_to_token.Nodup) :
    v.sortedIds.Pairwise (freqDescLe v.freqAt) ∧
      (v.prune max_size minf).id_to_token =
        (v.keptIds max_size minf).map v.tokenAt ∧
      (0 < max_size →
        (v.prune max_size minf).id_to_token =
          ((v.prune 0 minf).id_to_token).take max_size) ∧
      (∀ i, i < v.size →
        (v.tokenAt i ∈ (v.prune 0 minf).id_to_token ↔
          (minf ≤ v.freqAt i ∨ i = v.sortedIds.getD 0 0))) ∧
      (v.prune max_size minf).frequency.Pairwise (fun a b => b ≤ a) ∧
      (∀ p, p < (v.prune max_size minf).size →
        dget (v.prune max_size minf).token_to_id
          ((v.prune max_size minf).id_to_token.getD p emptyStr) = some p) := by
  refine ⟨sortedIds_pairwise v, prune_id_to_token v max_size minf, ?_, ?_, ?_, ?_⟩
  · intro hmx
    rw [prune_id_to_token, prune_id_to_token, Vocab.keptIds, Vocab.keptIds,
      pruneSize_capped v minf hmx, List.map_take, List.map_take, List.take_take]
    congr 1
    omega
  · intro i hi
    have h0 : 0 < v.sortedIds.length := by
      rw [sortedIds_length]
      omega
    constructor
    · intro hmem
      rw [prune_id_to_token] at hmem
      obtain ⟨x, hx, hxe⟩ := List.mem_map.mp hmem
      have hxi : x = i :=
        tokenAt_inj hnd (mem_keptIds_lt hx) hi hxe
      subst hxi
      obtain ⟨a, ha, hka⟩ := List.mem_iff_getElem.mp hx
      rcases Nat.eq_zero_or_pos a with rfl | hapos
      · right
        rw [← hka, keptIds_getElem v 0 minf ha]
      · left
        have halt : a < v.pruneSize 0 minf := by
          rw [keptIds_length] at ha
          exact ha
        have := kept_tail_ge v minf hapos halt
        have hsa : v.sortedIds.getD a 0 = x := by
          rw [← keptIds_getElem v 0 minf ha, hka]
        rwa [hsa] at this
    · intro hc
      rw [prune_id_to_token]
      rcases hc with hge | heq
      · have hmem : i ∈ v.sortedIds := mem_sortedIds.mpr hi
        rw [← List.take_append_drop (v.pruneSize 0 minf) v.sortedIds] at hmem
        rcases List.mem_append.mp hmem with h | h
        · exact List.mem_map_of_mem _ h
        · exact absurd (dropped_below v minf i h) (not_lt.mpr hge)
      · have hk : i ∈ v.keptIds 0 minf := by
          have hpos : 1 ≤ v.pruneSize 0 minf := pruneSize_pos v minf (by omega)
          have hlen : 0 < (v.keptIds 0 minf).length := by
            rw [keptIds_length]
            omega
          have : (v.keptIds 0 minf)[0] = i := by
            rw [keptIds_getElem v 0 minf hlen, heq]
          rw [← this]
          exact List.getElem_mem hlen
        exact List.mem_map_of_mem _ hk
  · rw [prune_frequency]
    exact List.Pairwise.map _ (fun a b h => freqDescLe_le h)
      (keptIds_pairwise v max_size minf)
  · intro p hp
    have hp' : p < (v.keptIds max_size minf).length := by
      rw [keptIds_length]
      rw [prune_size_eq] at hp
      exact hp
    have hfold := (pruneFold_dget v (v.keptIds max_size minf) Vocab.empty
      (by simpa [Vocab.empty] using keptIds_map_nodup hnd max_size minf)
      Inv_empty).2 p hp'
    have hgd : (v.prune max_size minf).id_to_token.getD p emptyStr =
        v.tokenAt ((v.keptIds max_size minf).getD p 0) := by
      rw [prune_id_to_token,
        List.getD_eq_getElem _ _ (by rwa [List.length_map]),
        List.getElem_map, List.getD_eq_getElem _ _ hp']
    rw [hgd]
    show dget ((v.keptIds max_size minf).foldl (pruneStep v)
      Vocab.empty).token_to_id _ = _
    rw [hfold]
    simp [Vocab.empty]

/-! ## pad_to_multiple lemmas -/

theorem padAux_spec (m b : Nat) :
    ∀ (fuel : Nat) (v : Vocab) (i : Nat) (v' : Vocab), v.Inv →
      Vocab.padAux v m b i fuel = some v' →
      ((v'.size + b) % m = 0 ∧
        (∃ app, v'.id_to_token = v.id_to_token ++ app ∧
          (∀ t ∈ app, ∃ j, i ≤ j ∧ t = synthToken j)) ∧
        v'.Inv ∧
        (v.id_to_token.Nodup → v'.id_to_token.Nodup)) := by
  intro fuel
  induction fuel with
  | zero =>
      intro v i v' _ h
      simp [Vocab.padAux] at h
  | succ fuel ih =>
      intro v i v' hv h
      simp only [Vocab.padAux] at h
      by_cases hc : (v.size + b) % m = 0
      · rw [if_pos hc] at h
        injection h with h
        subst h
        exact ⟨hc, ⟨[], by simp, by simp⟩, hv, fun hnd => hnd⟩
      · rw [if_neg hc] at h
        obtain ⟨h1, ⟨app, happ, hsyn⟩, hInv, hnd'⟩ :=
          ih (v.add (synthToken i)) (i + 1) v' (Inv_add hv _) h
        refine ⟨h1, ?_, hInv, ?_⟩
        · by_cases hmem : synthToken i ∈ v.id_to_token
          · rw [add_id_of_mem hv hmem] at happ
            exact ⟨app, happ,
              fun t ht => (hsyn t ht).imp fun j hj => ⟨by omega, hj.2⟩⟩
          · rw [add_id_of_not_mem hv hmem] at happ
            refine ⟨synthToken i :: app, by rw [happ, List.append_assoc]; rfl, ?_⟩
            intro t ht
            rcases List.mem_cons.mp ht with rfl | ht
            · exact ⟨i, le_refl i, rfl⟩
            · exact (hsyn t ht).imp fun j hj => ⟨by omega, hj.2⟩
        · intro hnd
          exact hnd' (nodup_add hv hnd _)

/-- C7: for every vocabulary and every positive `multiple`, a terminating run
of `pad_to_multiple(multiple, oov_buckets)` ends with
`(size + oov_buckets) % multiple = 0`; it only appends tokens of the
synthetic form `averyunlikelytoken<i>` after the existing ones, and (when the
vocabulary has no duplicate tokens) the resulting token list is still
duplicate-free, so the appended tokens are distinct and collide with no
previously-present token; the call is a no-op when the condition already
holds; and every previously-present token keeps exactly its prior id. -/
theorem pad_to_multiple_spec (v : Vocab) (m b fuel : Nat) (v' : Vocab)
    (hm : 0 < m) (hv : v.Inv) (hnd : v.id_to_token.Nodup)
    (hrun : v.pad_to_multiple m b fuel = some v') :
    (v'.size + b) % m = 0 ∧
      (∃ app, v'.id_to_token = v.id_to_token ++ app ∧
        (∀ t ∈ app, ∃ j, t = synthToken j)) ∧
      v'.id_to_token.Nodup ∧
      ((v.size + b) % m = 0 → v' = v) ∧
      (∀ p, p < v.size →
        v'.id_to_token.getD p emptyStr = v.id_to_token.getD p emptyStr) := by
  have hm' := hm
  clear hm'
  obtain ⟨h1, ⟨app, happ, hsyn⟩, _hInv, hnd'⟩ :=
    padAux_spec m b fuel v 0 v' hv hrun
  refine ⟨h1, ⟨app, happ, fun t ht => (hsyn t ht).imp fun j hj => hj.2⟩,
    hnd' hnd, ?_, ?_⟩
  · intro hc
    cases fuel with
    | zero => simp [Vocab.pad_to_multiple, Vocab.padAux] at hrun
    | succ fuel =>
        simp only [Vocab.pad_to_multiple, Vocab.padAux, if_pos hc] at hrun
        injection hrun with hrun
        exact hrun.symm
  · intro p hp
    have hlen : v.size = v.id_to_token.length := rfl
    have hp' : p < v'.id_to_token.length := by
      rw [happ, List.length_append]
      omega
    rw [List.getD_eq_getElem _ _ hp', List.getD_eq_getElem _ _ hp]
    have h1 : v'.id_to_token[p]? = v.id_to_token[p]? := by
      rw [happ, List.getElem?_append,
        if_pos (show p < v.id_to_token.length from by omega)]
    rw [List.getElem?_eq_getElem hp', List.getElem?_eq_getElem hp] at h1
    exact Option.some.inj h1

theorem pad_to_multiple_spec_witness :
    0 < 4 ∧ (Vocab.fromList [tokA]).id_to_token.Nodup ∧
      (Vocab.fromList [tokA]).pad_to_multiple 4 1 10 =
        some (((Vocab.fromList [tokA]).pad_to_multiple 4 1 10).getD Vocab.empty) ∧
      (((((Vocab.fromList [tokA]).pad_to_multiple 4 1 10).getD Vocab.empty).size + 1) % 4 = 0 ∧
        (∃ app, (((Vocab.fromList [tokA]).pad_to_multiple 4 1 10).getD
            Vocab.empty).id_to_token =
          (Vocab.fromList [tokA]).id_to_token ++ app ∧
          (∀ t ∈ app, ∃ j, t = synthToken j)) ∧
        (((Vocab.fromList [tokA]).pad_to_multiple 4 1 10).getD
          Vocab.empty).id_to_token.Nodup ∧
        (((Vocab.fromList [tokA]).size + 1) % 4 = 0 →
          ((Vocab.fromList [tokA]).pad_to_multiple 4 1 10).getD Vocab.empty =
            Vocab.fromList [tokA]) ∧
        (∀ p, p < (Vocab.fromList [tokA]).size →
          (((Vocab.fromList [tokA]).pad_to_multiple 4 1 10).getD
              Vocab.empty).id_to_token.getD p emptyStr =
            (Vocab.fromList [tokA]).id_to_token.getD p emptyStr)) :=
  ⟨by decide, by decide, by decide,
    pad_to_multiple_spec (Vocab.fromList [tokA]) 4 1 10
      (((Vocab.fromList [tokA]).pad_to_multiple 4 1 10).getD Vocab.empty)
      (by decide) (fromList_Inv [tokA]) (by decide) (by decide)⟩

/-! ## lookup lemmas -/

theorem pyGetAbs_ok {α : Type} (l : List α) (j : Int) (h0 : 0 ≤ j)
    (hlt : j.toNat < l.length) :
    pyGetAbs l j = Except.ok (l.get ⟨j.toNat, hlt⟩) := by
  rw [pyGetAbs, if_neg (not_lt.mpr h0)]
  rw [List.get?_eq_getElem?, List.getElem?_eq_getElem hlt]
  rfl

theorem pyGetAbs_err_neg {α : Type} (l : List α) (j : Int) (h : j < 0) :
    pyGetAbs l j = Except.error () := by
  rw [pyGetAbs, if_pos h]

theorem pyGetAbs_err_big {α : Type} (l : List α) (j : Int) (h0 : 0 ≤ j)
    (h : l.length ≤ j.toNat) :
    pyGetAbs l j = Except.error () := by
  rw [pyGetAbs, if_neg (not_lt.mpr h0), List.get?_eq_getElem?,
    List.getElem?_eq_none h]

/-- C4 counterexample: on the vocabulary built from `["a", "b"]` (size 2),
integer lookup of `-1` does not return the caller-supplied default — Python
negative indexing makes it return the last token `"b"` — and integer lookup
of `-3` raises `IndexError` instead of returning the default; both refute the
claim that every id outside `[0, size)` yields the default and that lookup
never raises. -/
theorem lookup_negative_id_counterexample :
    (Vocab.fromList [tokA, tokB]).lookupInt (-1) = Except.ok (some tokB) ∧
      Except.ok (some tokB) ≠ (Except.ok none : Except Unit (Option String)) ∧
      (Vocab.fromList [tokA, tokB]).lookupInt (-3) = Except.error () :=
  ⟨rfl, by simp, rfl⟩

/-- C4 (amended): lookup with a string returns the token's id when the token
is known and the caller-supplied default otherwise; lookup with an integer id
returns the token at that id when `0 ≤ id < size`, the default when
`id ≥ size`, the token at `size + id` when `-size ≤ id < 0` (Python negative
indexing), and raises `IndexError` when `id < -size`. -/
theorem lookup_spec (v : Vocab) (hv : v.Inv) (t : String) (i : Int) :
    ((v.lookupToken t).isSome ↔ t ∈ v.id_to_token) ∧
      (t ∉ v.id_to_token → v.lookupToken t = none) ∧
      (0 ≤ i → i < (v.size : Int) →
        v.lookupInt i = Except.ok (some (v.tokenAt i.toNat))) ∧
      ((v.size : Int) ≤ i → v.lookupInt i = Except.ok none) ∧
      (i < 0 → -(v.size : Int) ≤ i →
        v.lookupInt i = Except.ok (some (v.tokenAt (i + (v.size : Int)).toNat))) ∧
      (i < -(v.size : Int) → v.lookupInt i = Except.error ()) := by
  have hlen : v.size = v.id_to_token.length := rfl
  refine ⟨hv t, ?_, ?_, ?_, ?_, ?_⟩
  · intro h
    cases hg : v.lookupToken t with
    | none => rfl
    | some id =>
        exact absurd ((hv t).mp (by
          show (v.lookupToken t).isSome
          rw [hg]
          rfl)) h
  · intro h0 hlt
    have hnat : i.toNat < v.id_to_token.length := by
      rw [← hlen]
      omega
    rw [Vocab.lookupInt, if_pos hlt, pyGet, if_neg (not_lt.mpr h0),
      pyGetAbs_ok v.id_to_token i h0 hnat]
    rw [Except.map]
    show Except.ok (some (v.id_to_token.get ⟨i.toNat, hnat⟩)) = _
    rw [Vocab.tokenAt, List.getD_eq_getElem _ _ hnat]
    rfl
  · intro hge
    rw [Vocab.lookupInt, if_neg (not_lt.mpr hge)]
  · intro hneg hge
    have hlt : i < (v.size : Int) :=
      lt_of_lt_of_le hneg (Int.natCast_nonneg _)
    have h0 : 0 ≤ i + (v.id_to_token.length : Int) := by
      rw [← hlen]
      omega
    have hnat : (i + (v.id_to_token.length : Int)).toNat <
        v.id_to_token.length := by
      omega
    rw [Vocab.lookupInt, if_pos hlt, pyGet, if_pos hneg,
      pyGetAbs_ok v.id_to_token _ h0 hnat]
    rw [Except.map]
    show Except.ok (some (v.id_to_token.get ⟨_, hnat⟩)) = _
    rw [Vocab.tokenAt, List.getD_eq_getElem _ _ (by rw [← hlen] at hnat; exact hnat)]
    rfl
  · intro hlt2
    have hneg : i < 0 := by
      have : (0 : Int) ≤ (v.size : Int) := Int.natCast_nonneg _
      omega
    have hlt : i < (v.size : Int) :=
      lt_of_lt_of_le hneg (Int.natCast_nonneg _)
    have hj : i + (v.id_to_token.length : Int) < 0 := by
      rw [← hlen]
      omega
    rw [Vocab.lookupInt, if_pos hlt, pyGet, if_pos hneg,
      pyGetAbs_err_neg v.id_to_token _ hj]
    rfl

theorem lookup_spec_witness :
    (((Vocab.fromList [tokA, tokB]).lookupToken tokB).isSome ↔
        tokB ∈ (Vocab.fromList [tokA, tokB]).id_to_token) ∧
      (tokB ∉ (Vocab.fromList [tokA, tokB]).id_to_token →
        (Vocab.fromList [tokA, tokB]).lookupToken tokB = none) ∧
      (0 ≤ (-1 : Int) → (-1 : Int) < ((Vocab.fromList [tokA, tokB]).size : Int) →
        (Vocab.fromList [tokA, tokB]).lookupInt (-1) =
          Except.ok (some ((Vocab.fromList [tokA, tokB]).tokenAt (-1 : Int).toNat))) ∧
      (((Vocab.fromList [tokA, tokB]).size : Int) ≤ (-1 : Int) →
        (Vocab.fromList [tokA, tokB]).lookupInt (-1) = Except.ok none) ∧
      ((-1 : Int) < 0 → -((Vocab.fromList [tokA, tokB]).size : Int) ≤ (-1 : Int) →
        (Vocab.fromList [tokA, tokB]).lookupInt (-1) =
          Except.ok (some ((Vocab.fromList [tokA, tokB]).tokenAt
            ((-1 : Int) + ((Vocab.fromList [tokA, tokB]).size : Int)).toNat))) ∧
      ((-1 : Int) < -((Vocab.fromList [tokA, tokB]).size : Int) →
        (Vocab.fromList [tokA, tokB]).lookupInt (-1) = Except.error ()) :=
  lookup_spec (Vocab.fromList [tokA, tokB]) (fromList_Inv [tokA, tokB]) tokB (-1)

theorem prune_spec_witness :
    (Vocab.fromList [tokA, tokB, tokA]).id_to_token.Nodup ∧
      ((Vocab.fromList [tokA, tokB, tokA]).sortedIds.Pairwise
          (freqDescLe (Vocab.fromList [tokA, tokB, tokA]).freqAt) ∧
        ((Vocab.fromList [tokA, tokB, tokA]).prune 1 2).id_to_token =
          ((Vocab.fromList [tokA, tokB, tokA]).keptIds 1 2).map
            (Vocab.fromList [tokA, tokB, tokA]).tokenAt ∧
        (0 < 1 →
          ((Vocab.fromList [tokA, tokB, tokA]).prune 1 2).id_to_token =
            (((Vocab.fromList [tokA, tokB, tokA]).prune 0 2).id_to_token).take 1) ∧
        (∀ i, i < (Vocab.fromList [tokA, tokB, tokA]).size →
          ((Vocab.fromList [tokA, tokB, tokA]).tokenAt i ∈
              ((Vocab.fromList [tokA, tokB, tokA]).prune 0 2).id_to_token ↔
            ((2 : Freq) ≤ (Vocab.fromList [tokA, tokB, tokA]).freqAt i ∨
              i = (Vocab.fromList [tokA, tokB, tokA]).sortedIds.getD 0 0))) ∧
        ((Vocab.fromList [tokA, tokB, tokA]).prune 1 2).frequency.Pairwise
          (fun a b => b ≤ a) ∧
        (∀ p, p < ((Vocab.fromList [tokA, tokB, tokA]).prune 1 2).size →
          dget ((Vocab.fromList [tokA, tokB, tokA]).prune 1 2).token_to_id
            (((Vocab.fromList [tokA, tokB, tokA]).prune 1 2).id_to_token.getD p
              emptyStr) = some p)) :=
  ⟨by decide, prune_spec (Vocab.fromList [tokA, tokB, tokA]) 1 2 (by decide)⟩

/-! ## Hypothesis truncation (C9) -/

/-- C9: in the hypothesis-restriction tail of `_dynamic_decode`, a positive
`num_hypotheses` greater than the beam width raises `ValueError`; a positive
`num_hypotheses` not exceeding the beam width truncates every prediction
field to the first (best-scoring) `num_hypotheses` hypotheses per input, so
each row keeps at most `num_hypotheses` entries. -/
theorem truncate_predictions_spec {α : Type} (n : Int) (beam : Nat)
    (preds : List (String × List (List α))) :
    (0 < n → (beam : Int) < n →
      truncate_predictions n beam preds =
        Except.error ("n_best cannot be greater than beam_width")) ∧
      (0 < n → n ≤ (beam : Int) →
        truncate_predictions n beam preds =
          Except.ok (preds.map (fun kv =>
            (kv.1, kv.2.map (fun row => row.take n.toNat)))) ∧
        ∀ res, truncate_predictions n beam preds = Except.ok res →
          ∀ kv ∈ res, ∀ row ∈ kv.2, row.length ≤ n.toNat) := by
  constructor
  · intro hpos hgt
    rw [truncate_predictions, if_pos hpos, if_pos hgt]
  · intro hpos hle
    have hnot : ¬ (beam : Int) < n := not_lt.mpr hle
    constructor
    · rw [truncate_predictions, if_pos hpos, if_neg hnot]
    · intro res hres kv hkv row hrow
      rw [truncate_predictions, if_pos hpos, if_neg hnot] at hres
      injection hres with hres
      subst hres
      obtain ⟨kv0, _hkv0, hkve⟩ := List.mem_map.mp hkv
      rw [← hkve] at hrow
      obtain ⟨row0, _hrow0, hrowe⟩ := List.mem_map.mp hrow
      rw [← hrowe, List.length_take]
      omega

theorem truncate_predictions_spec_witness :
    ((0 < (2 : Int) → ((1 : Nat) : Int) < (2 : Int) →
        truncate_predictions 2 1 [(tokA, [[tokB]])] =
          Except.error ("n_best cannot be greater than beam_width")) ∧
      (0 < (2 : Int) → (2 : Int) ≤ ((1 : Nat) : Int) →
        truncate_predictions 2 1 [(tokA, [[tokB]])] =
          Except.ok ([(tokA, [[tokB]])].map (fun kv =>
            (kv.1, kv.2.map (fun row => row.take (2 : Int).toNat)))) ∧
        ∀ res, truncate_predictions 2 1 [(tokA, [[tokB]])] = Except.ok res →
          ∀ kv ∈ res, ∀ row ∈ kv.2, row.length ≤ (2 : Int).toNat)) ∧
      ((0 < (1 : Int) → ((2 : Nat) : Int) < (1 : Int) →
        truncate_predictions 1 2 [(tokA, [[tokB, tokC]])] =
          Except.error ("n_best cannot be greater than beam_width")) ∧
      (0 < (1 : Int) → (1 : Int) ≤ ((2 : Nat) : Int) →
        truncate_predictions 1 2 [(tokA, [[tokB, tokC]])] =
          Except.ok ([(tokA, [[tokB, tokC]])].map (fun kv =>
            (kv.1, kv.2.map (fun row => row.take (1 : Int).toNat)))) ∧
        ∀ res, truncate_predictions 1 2 [(tokA, [[tokB, tokC]])] =
            Except.ok res →
          ∀ kv ∈ res, ∀ row ∈ kv.2, row.length ≤ (1 : Int).toNat)) :=
  ⟨truncate_predictions_spec 2 1 [(tokA, [[tokB]])],
    truncate_predictions_spec 1 2 [(tokA, [[tokB, tokC]])]⟩

/-! ## Loss selection (C6) -/

/-- C6: `compute_loss` returns the max-margin loss (margin `eta` read from
`max_margin_eta`) exactly when contrastive learning is enabled and noisy
logits are present; otherwise (here stated with no gold word-alignment
supplied, so no guided-alignment term is added) it returns the
label-smoothed cross-entropy triple with the configured `label_smoothing`
passed through; and the spec-modelled label-smoothed cross-entropy differs
from the unsmoothed one for every positive smoothing value (at a
non-degenerate log-probability vector). -/
theorem compute_loss_selection {L T : Type} [Add L]
    (mml : T → T → T → T → T → T → ℚ → L)
    (cel : T → T → T → Option T → ℚ → Bool → Bool → Bool → L × L × L)
    (gac : T → T → T → String → ℚ → L)
    (params : S2SParams) (outputs : S2SOutputs T) (labels : S2SLabels T)
    (training : Bool) :
    (∀ noisy, outputs.noisy_logits = some noisy →
      params.contrastive_learning = true →
      compute_loss mml cel gac params outputs labels training =
        Sum.inl (mml outputs.logits labels.ids_out labels.length noisy
          labels.noisy_ids_out labels.noisy_length params.max_margin_eta)) ∧
      ((outputs.noisy_logits = none ∨ params.contrastive_learning = false) →
        labels.alignment = none →
        compute_loss mml cel gac params outputs labels training =
          Sum.inr (cel outputs.logits labels.ids_out labels.length
            labels.weight params.label_smoothing params.average_loss_in_time
            params.mask_loss_outliers training)) ∧
      (∀ ε : ℚ, 0 < ε →
        smoothed_cross_entropy [0, -1] 0 ε ≠
          smoothed_cross_entropy [0, -1] 0 0) := by
  refine ⟨?_, ?_, ?_⟩
  · intro noisy hn hc
    simp [compute_loss, hn, hc]
  · intro h halign
    rcases h with hn | hc
    · simp [compute_loss, hn, halign]
    · cases houts : outputs.noisy_logits with
      | none => simp [compute_loss, houts, halign]
      | some noisy => simp [compute_loss, houts, hc, halign]
  · intro ε hε
    simp only [smoothed_cross_entropy, List.getD_cons_zero, List.sum_cons,
      List.sum_nil, List.length_cons, List.length_nil]
    intro hc
    push_cast at hc
    norm_num at hc
    exact absurd hc (ne_of_gt hε)

theorem compute_loss_selection_witness :
    ((∀ noisy, c6Outputs.noisy_logits = some noisy →
        c6ParamsOn.contrastive_learning = true →
        compute_loss c6mml c6cel c6gac c6ParamsOn c6Outputs c6Labels true =
          Sum.inl (c6mml c6Outputs.logits c6Labels.ids_out c6Labels.length
            noisy c6Labels.noisy_ids_out c6Labels.noisy_length
            c6ParamsOn.max_margin_eta)) ∧
      ((c6Outputs.noisy_logits = none ∨
          c6ParamsOn.contrastive_learning = false) →
        c6Labels.alignment = none →
        compute_loss c6mml c6cel c6gac c6ParamsOn c6Outputs c6Labels true =
          Sum.inr (c6cel c6Outputs.logits c6Labels.ids_out c6Labels.length
            c6Labels.weight c6ParamsOn.label_smoothing
            c6ParamsOn.average_loss_in_time c6ParamsOn.mask_loss_outliers
            true)) ∧
      (∀ ε : ℚ, 0 < ε →
        smoothed_cross_entropy [0, -1] 0 ε ≠
          smoothed_cross_entropy [0, -1] 0 0)) ∧
      ((∀ noisy, c6Outputs.noisy_logits = some noisy →
        c6ParamsOff.contrastive_learning = true →
        compute_loss c6mml c6cel c6gac c6ParamsOff c6Outputs c6Labels true =
          Sum.inl (c6mml c6Outputs.logits c6Labels.ids_out c6Labels.length
            noisy c6Labels.noisy_ids_out c6Labels.noisy_length
            c6ParamsOff.max_margin_eta)) ∧
      ((c6Outputs.noisy_logits = none ∨
          c6ParamsOff.contrastive_learning = false) →
        c6Labels.alignment = none →
        compute_loss c6mml c6cel c6gac c6ParamsOff c6Outputs c6Labels true =
          Sum.inr (c6cel c6Outputs.logits c6Labels.ids_out c6Labels.length
            c6Labels.weight c6ParamsOff.label_smoothing
            c6ParamsOff.average_loss_in_time c6ParamsOff.mask_loss_outliers
            true)) ∧
      (∀ ε : ℚ, 0 < ε →
        smoothed_cross_entropy [0, -1] 0 ε ≠
          smoothed_cross_entropy [0, -1] 0 0)) :=
  ⟨compute_loss_selection c6mml c6cel c6gac c6ParamsOn c6Outputs c6Labels true,
    compute_loss_selection c6mml c6cel c6gac c6ParamsOff c6Outputs c6Labels true⟩

/-! ## Unknown-token replacement (C5) -/

theorem argmaxAux_spec (row : List ℚ) :
    ∀ (xs : List ℚ) (best : ℚ) (bestIdx cur : Nat),
      bestIdx < cur → cur + xs.length = row.length →
      row.getD bestIdx 0 = best →
      (∀ k, k < cur → row.getD k 0 ≤ best) →
      (∀ k, k < xs.length → xs.getD k 0 = row.getD (cur + k) 0) →
      argmaxAux best bestIdx cur xs < row.length ∧
        (∀ k, k < row.length →
          row.getD k 0 ≤ row.getD (argmaxAux best bestIdx cur xs) 0) := by
  intro xs
  induction xs with
  | nil =>
      intro best bestIdx cur h1 h2 h3 h4 _
      simp only [argmaxAux]
      simp only [List.length_nil, Nat.add_zero] at h2
      constructor
      · omega
      · intro k hk
        rw [h3]
        exact h4 k (by omega)
  | cons y ys ih =>
      intro best bestIdx cur h1 h2 h3 h4 h5
      have hy : y = row.getD cur 0 := by
        have := h5 0 (by simp)
        simpa using this
      simp only [List.length_cons] at h2
      by_cases hlt : best < y
      · simp only [argmaxAux, if_pos hlt]
        refine ih y cur (cur + 1) (by omega) (by omega) hy.symm ?_ ?_
        · intro k hk
          rcases Nat.lt_succ_iff_lt_or_eq.mp hk with hk | hk
          · exact le_trans (h4 k hk) (le_of_lt hlt)
          · subst hk
            rw [← hy]
        · intro k hk
          have := h5 (k + 1) (by simpa using Nat.succ_lt_succ hk)
          rw [List.getD_cons_succ] at this
          rw [this]
          congr 1
          omega
      · simp only [argmaxAux, if_neg hlt]
        refine ih best bestIdx (cur + 1) (by omega) (by omega) h3 ?_ ?_
        · intro k hk
          rcases Nat.lt_succ_iff_lt_or_eq.mp hk with hk | hk
          · exact h4 k hk
          · subst hk
            rw [← hy]
            exact not_lt.mp hlt
        · intro k hk
          have := h5 (k + 1) (by simpa using Nat.succ_lt_succ hk)
          rw [List.getD_cons_succ] at this
          rw [this]
          congr 1
          omega

theorem tfArgmax_spec (row : List ℚ) (h : row ≠ []) :
    tfArgmax row < row.length ∧
      ∀ k, k < row.length → row.getD k 0 ≤ row.getD (tfArgmax row) 0 := by
  match row with
  | [] => exact absurd rfl h
  | x :: xs =>
      have := argmaxAux_spec (x :: xs) xs x 0 1 (by omega)
        (by simp [Nat.add_comm]) (by simp) ?_ ?_
      · exact this
      · intro k hk
        interval_cases k
        simp
      · intro k hk
        have h1k : 1 + k = k + 1 := by omega
        rw [h1k, List.getD_cons_succ]

/-- C5: `replace_unknown_target` replaces each target position holding the
unknown token by the source token at the attention argmax for that position
(per batch element), and leaves every other target position unchanged; the
replacing token's attention weight is maximal over the source axis. -/
theorem replace_unknown_target_spec
    (tgt src : List (List String)) (att : List (List (List ℚ)))
    (unk : String) (b : Nat)
    (hb : b < tgt.length) (hs : tgt.length ≤ src.length)
    (ha : tgt.length ≤ att.length)
    (hrow : (att.getD b []).length = (tgt.getD b []).length)
    (hcols : ∀ t, t < (tgt.getD b []).length →
      ((att.getD b []).getD t []).length = (src.getD b []).length)
    (hpos : 0 < (src.getD b []).length) :
    ((replace_unknown_target tgt src att unk).getD b []).length =
        (tgt.getD b []).length ∧
      ∀ t, t < (tgt.getD b []).length →
        (((replace_unknown_target tgt src att unk).getD b []).getD t emptyStr =
          if (tgt.getD b []).getD t emptyStr = unk then
            (src.getD b []).getD (tfArgmax ((att.getD b []).getD t [])) emptyStr
          else (tgt.getD b []).getD t emptyStr) ∧
        tfArgmax ((att.getD b []).getD t []) < (src.getD b []).length ∧
        ∀ k, k < (src.getD b []).length →
          ((att.getD b []).getD t []).getD k 0 ≤
            ((att.getD b []).getD t []).getD
              (tfArgmax ((att.getD b []).getD t [])) 0 := by
  have hbs : b < src.length := lt_of_lt_of_le hb hs
  have hba : b < att.length := lt_of_lt_of_le hb ha
  have hgd2 : tgt.getD b [] = tgt[b] := List.getD_eq_getElem _ _ hb
  have hgd3 : att.getD b [] = att[b] := List.getD_eq_getElem _ _ hba
  have hgd4 : src.getD b [] = src[b] := List.getD_eq_getElem _ _ hbs
  rw [hgd2] at hrow hcols ⊢
  rw [hgd3] at hrow hcols ⊢
  rw [hgd4] at hcols hpos ⊢
  have hallen : (align_tokens_from_attention src att).length =
      min src.length att.length := by
    rw [align_tokens_from_attention, List.length_zipWith]
  have hbal : b < (align_tokens_from_attention src att).length := by
    omega
  have halb : (align_tokens_from_attention src att)[b] =
      att[b].map (fun row => src[b].getD (tfArgmax row) emptyStr) := by
    show (List.zipWith _ src att)[b] = _
    rw [List.getElem_zipWith]
  have hreslen0 : (replace_unknown_target tgt src att unk).length =
      min tgt.length (align_tokens_from_attention src att).length := by
    rw [replace_unknown_target, List.length_zipWith]
  have hbres : b < (replace_unknown_target tgt src att unk).length := by
    omega
  have hresb : (replace_unknown_target tgt src att unk)[b] =
      List.zipWith (fun t a => if t = unk then a else t) tgt[b]
        (att[b].map (fun row => src[b].getD (tfArgmax row) emptyStr)) := by
    show (List.zipWith _ tgt (align_tokens_from_attention src att))[b] = _
    rw [List.getElem_zipWith, halb]
  have hroweq : (replace_unknown_target tgt src att unk).getD b [] =
      List.zipWith (fun t a => if t = unk then a else t) tgt[b]
        (att[b].map (fun row => src[b].getD (tfArgmax row) emptyStr)) := by
    rw [List.getD_eq_getElem _ _ hbres]
    exact hresb
  rw [hroweq]
  have hrowlen : (List.zipWith (fun t a => if t = unk then a else t) tgt[b]
      (att[b].map (fun row => src[b].getD (tfArgmax row) emptyStr))).length =
      tgt[b].length := by
    rw [List.length_zipWith, List.length_map, hrow]
    omega
  refine ⟨hrowlen, ?_⟩
  intro t ht
  have hta : t < att[b].length := by omega
  have hatrow : att[b].getD t [] = att[b][t] := List.getD_eq_getElem _ _ hta
  rw [hatrow]
  have hrownz : att[b][t] ≠ [] := by
    intro hc
    have := hcols t ht
    rw [hatrow, hc] at this
    simp at this
    omega
  have hcollen : (att[b][t]).length = src[b].length := by
    have := hcols t ht
    rwa [hatrow] at this
  obtain ⟨hmax1, hmax2⟩ := tfArgmax_spec (att[b][t]) hrownz
  refine ⟨?_, by omega, fun k hk => hmax2 k (by omega)⟩
  have htz : t < (List.zipWith (fun t a => if t = unk then a else t) tgt[b]
      (att[b].map (fun row => src[b].getD (tfArgmax row) emptyStr))).length := by
    omega
  rw [List.getD_eq_getElem _ _ htz, List.getElem_zipWith, List.getElem_map,
    List.getD_eq_getElem _ _ ht]

theorem replace_unknown_target_spec_witness :
    replace_unknown_target c5Tgt c5Src c5Att unkTok = [[tokCat, tokCat]] ∧
      tfArgmax [(0 : ℚ), 1, 0] = 1 ∧
      (((replace_unknown_target c5Tgt c5Src c5Att unkTok).getD 0 []).length =
          (c5Tgt.getD 0 []).length ∧
        ∀ t, t < (c5Tgt.getD 0 []).length →
          (((replace_unknown_target c5Tgt c5Src c5Att unkTok).getD 0 []).getD t
              emptyStr =
            if (c5Tgt.getD 0 []).getD t emptyStr = unkTok then
              (c5Src.getD 0 []).getD
                (tfArgmax ((c5Att.getD 0 []).getD t [])) emptyStr
            else (c5Tgt.getD 0 []).getD t emptyStr) ∧
          tfArgmax ((c5Att.getD 0 []).getD t []) < (c5Src.getD 0 []).length ∧
          ∀ k, k < (c5Src.getD 0 []).length →
            ((c5Att.getD 0 []).getD t []).getD k 0 ≤
              ((c5Att.getD 0 []).getD t []).getD
                (tfArgmax ((c5Att.getD 0 []).getD t [])) 0) :=
  ⟨by decide, by decide,
    replace_unknown_target_spec c5Tgt c5Src c5Att unkTok 0 (by decide)
      (by decide) (by decide) (by decide) (by decide) (by decide)⟩

end MT
